import Mathlib

/-!
Verification of the structure-inference and tree-materialization engine of
`directory-control.py` against its natural-language specification.

The materialization side (`build_tree_from_nodes`, `resolve_collision`) is
embedded over an abstract filesystem: paths are lists of components, the
filesystem is a partial map from paths to entries (file with content, or
directory).  Filesystem effects of the Python code (`os.makedirs`,
`shutil.move`, `open(..., 'w')`, `os.path.exists`, `os.path.isfile`) are
modelled explicitly, including their failure conditions; a failing effect is
recorded as an error action, mirroring the per-node try/except of the source.

The parsing side (`sanitize_name`, `parse_line_content`, `identify_nodes`),
the robust reader (`read_text_file`) and the serializer
(`generate_tree_string`) follow below, each translated from the source.
-/

namespace DirCtl

/-- A filesystem path, as a list of components from the filesystem root. -/
abbrev Path := List String

/-- A filesystem entry: a regular file with its text content, or a directory. -/
inductive FEntry where
  | file (content : String)
  | dir
deriving DecidableEq

/-- The filesystem: a partial map from paths to entries. -/
abbrev FS := Path → Option FEntry

/-- Point update of the filesystem map (`none` removes the entry). -/
def FS.upd (fs : FS) (p : Path) (e : Option FEntry) : FS :=
  fun q => if q = p then e else fs q

/-- Model of `os.path.exists`: the path maps to some entry. -/
def existsP (fs : FS) (p : Path) : Bool :=
  (fs p).isSome

/-- Model of `os.path.isfile`: the path maps to a regular file. -/
def isfileP (fs : FS) (p : Path) : Bool :=
  match fs p with
  | some (.file _) => true
  | _ => false

/-- Model of `os.path.isdir`: the path maps to a directory. -/
def isdirP (fs : FS) (p : Path) : Bool :=
  match fs p with
  | some .dir => true
  | _ => false


/-- Model of `str.lower()` (ASCII case folding; the names involved are ASCII).
Structural replacement for `String.toLower`, which the kernel cannot
evaluate. -/
def strLower (s : String) : String :=
  ⟨s.data.map Char.toLower⟩

/-- Does the string start with the given character? -/
def startsWithChar (c : Char) (s : String) : Bool :=
  match s.data with
  | [] => false
  | a :: _ => a = c

/-- Does the string end with the given character? -/
def endsWithChar (c : Char) (s : String) : Bool :=
  match s.data.getLast? with
  | none => false
  | some a => a = c

/-- Split a character list at every occurrence of `c` (occurrences are
dropped), like `str.split(c)`. -/
def splitOnCharGo (c : Char) (acc : List Char) : List Char → List (List Char)
  | [] => [acc.reverse]
  | a :: r => if a = c then acc.reverse :: splitOnCharGo c [] r else splitOnCharGo c (a :: acc) r

/-- Model of `str.split(c)` on a one-character separator. -/
def splitOnChar (c : Char) (s : String) : List String :=
  (splitOnCharGo c [] s.data).map (fun l => ⟨l⟩)

/-- Split a name on the path separator, dropping empty segments
(`"a/b"` contributes two components, `"a.txt"` one). -/
def splitComponents (n : String) : List String :=
  (splitOnChar '/' n).filter (fun s => s ≠ "")

/-- Model of `os.path.join parent n`: append the components of `n`; a name starting
with the separator resets to an absolute path, as in `os.path.join`. -/
def joinPath (parent : Path) (n : String) : Path :=
  if startsWithChar '/' n then splitComponents n else parent ++ splitComponents n

/-- Worker for `os.makedirs(target, exist_ok=True)`: walk the prefixes of the
target, creating each missing component as a directory; hitting a regular
file raises (returns `false`), keeping the directories created so far —
exactly the partial-state behaviour of `os.makedirs`. -/
def mkdirsGo (fs : FS) (cur : Path) : List String → FS × Bool
  | [] => (fs, true)
  | c :: cs =>
    let p := cur ++ [c]
    match fs p with
    | some .dir => mkdirsGo fs p cs
    | some (.file _) => (fs, false)
    | none => mkdirsGo (fs.upd p (some .dir)) p cs

/-- Model of `os.makedirs(target, exist_ok=True)`.  `os.makedirs("")` raises, hence
the empty-path guard. -/
def mkdirs (fs : FS) (target : Path) : FS × Bool :=
  if target = [] then (fs, false) else mkdirsGo fs [] target

/-- Model of `open(target, 'w')` followed by a write: requires the parent to be an
existing directory and the target not to be a directory; creates (or
truncates to) a file holding `content`. -/
def writeFileAt (fs : FS) (target : Path) (content : String) : FS × Bool :=
  if isdirP fs target.dropLast = true ∧ isdirP fs target = false then
    (fs.upd target (some (.file content)), true)
  else (fs, false)

/-- Model of `shutil.move src dst` in the regime the builder uses it (plain file
source, non-existing destination): succeeds iff the source is a regular
file, the destination is absent and the destination's parent is an existing
directory; on failure the filesystem is unchanged (the underlying rename
fails before any copying). -/
def moveFile (fs : FS) (src dst : Path) : FS × Bool :=
  if isfileP fs src = true ∧ fs dst = none ∧ isdirP fs dst.dropLast = true then
    (((fs.upd src none).upd dst (fs src)), true)
  else (fs, false)

/-- Index (0-based) of the last `'.'` in a list of characters, if any. -/
def lastDotIdx (cs : List Char) : Option Nat :=
  ((List.range cs.length).filter (fun i => cs.get? i = some '.')).getLast?

/-- Model of `os.path.splitext` on a single path component: split at the last dot,
unless every character before that dot is itself a dot (so dotfiles such as
`".env"` have no extension), mirroring `posixpath.splitext`. -/
def splitext (s : String) : String × String :=
  match lastDotIdx s.data with
  | none => (s, "")
  | some d =>
    if (s.data.take d).any (fun c => c ≠ '.') then
      (⟨s.data.take d⟩, ⟨s.data.drop d⟩)
    else (s, "")

/-- The candidate path `dir/base_counter ++ ext` tried by `resolve_collision`. -/
def rcCand (dirp : Path) (base ext : String) (counter : Nat) : Path :=
  dirp ++ [base ++ "_" ++ toString counter ++ ext]

/-- The `while True` search of `resolve_collision`, trying counters 1, 2, …
until a non-existing candidate is found.  The source loop is unbounded; the
`fuel` argument is an artifact of the embedding, and every theorem that runs
the loop proves a concrete fuel bound suffices. -/
def rcLoop (fs : FS) (dirp : Path) (base ext : String) : Nat → Nat → Path × Bool
  | counter, 0 => (rcCand dirp base ext counter, true)
  | counter, fuel + 1 =>
    if existsP fs (rcCand dirp base ext counter) then
      rcLoop fs dirp base ext (counter + 1) fuel
    else (rcCand dirp base ext counter, true)

/-- Model of `resolve_collision(target_path)`: if the target does not exist it is
returned unchanged with `renamed = False`; otherwise the incrementing-suffix
search runs on `base, ext = os.path.splitext(target_path)`. -/
def resolve_collision (fs : FS) (target : Path) (fuel : Nat) : Path × Bool :=
  if existsP fs target then
    let be := splitext (target.getLast?.getD "")
    rcLoop fs target.dropLast be.1 be.2 1 fuel
  else (target, false)

/-- A parsed node: sanitized name, indent width, inferred type. -/
structure Node where
  name : String
  indent : Nat
  isDir : Bool
deriving DecidableEq

/-- The `stats` dictionary of `build_tree_from_nodes`. -/
structure Stats where
  dirs : Nat
  files : Nat
  moved : Nat
  skipped : Nat
deriving DecidableEq

/-- One logged action of a materialization run (the `log_action` calls):
directory creation, scaffold, adoption move (with the `renamed` flag of
`resolve_collision`), skip of an existing target, root-wrap skip, or a
caught per-node filesystem error. -/
inductive Action where
  | mkdirA (p : Path)
  | newA (p : Path)
  | moveA (src dst : Path) (renamed : Bool)
  | skipA (p : Path)
  | wrapA (name : String)
  | errA (p : Path)
deriving DecidableEq

/-- State threaded through a materialization run: the filesystem, the
ancestor `path_stack` (top of stack at the head), the counters, and the
chronological list of logged actions. -/
structure BState where
  fs : FS
  stack : List (Nat × Path)
  stats : Stats
  trace : List Action

/-- Pop stack entries whose indent is `≥` the current node's indent
(the `while path_stack and path_stack[-1][0] >= indent` loop). -/
def popStack (stack : List (Nat × Path)) (indent : Nat) : List (Nat × Path) :=
  stack.dropWhile (fun e => decide (e.1 ≥ indent))

/-- The parent path after popping: top of stack, or the working root. -/
def parentOf (stack : List (Nat × Path)) (rootPath : Path) : Path :=
  match stack with
  | [] => rootPath
  | e :: _ => e.2

/-- Number of error actions in a trace (per-node caught exceptions). -/
def errCount (l : List Action) : Nat :=
  l.countP (fun a => match a with | .errA _ => true | _ => false)

/-- Number of adoption moves that went through the rename (`REN`) sub-branch,
i.e. whose `resolve_collision` call reported a collision. -/
def renCount (l : List Action) : Nat :=
  l.countP (fun a => match a with | .moveA _ _ true => true | _ => false)

/-- Number of root-wrap skips in a trace. -/
def wrapCount (l : List Action) : Nat :=
  l.countP (fun a => match a with | .wrapA _ => true | _ => false)

/-- The `target_path` a node resolves to: pop the stack, join the parent
(new top of stack, or the working root) with the node's name. -/
def nodeTarget (rootPath : Path) (stack : List (Nat × Path)) (n : Node) : Path :=
  joinPath (parentOf (popStack stack n.indent) rootPath) n.name

/-- The root-wrap condition of the `i == 0` check of `build_tree_from_nodes`:
very first node, a directory, name equal to the basename of the working root
under case-insensitive comparison. -/
def wrapCond (rootName : String) (first : Bool) (n : Node) : Prop :=
  first = true ∧ n.isDir = true ∧ strLower n.name = strLower rootName

/-- The loop body of `build_tree_from_nodes` for one node.  `isFirst` is the
`i == 0` test of the root-wrap check; `rootName`/`rootPath` are
`os.path.basename(os.getcwd())` and `os.getcwd()`.  The branches follow the
source in order: root wrap; directory (push, create if missing); file
(skip if the target exists, else adopt a loose root file via
`resolve_collision` + `shutil.move`, else scaffold a placeholder).  The fuel
`0` passed to `resolve_collision` is irrelevant: at this call site the
target was just checked not to exist, so the collision loop is not entered
(theorem `c10_ren_unreachable`). -/
def processNode (rootName : String) (rootPath : Path) (isFirst : Bool)
    (st : BState) (n : Node) : BState :=
  if isFirst = true ∧ n.isDir = true ∧ strLower n.name = strLower rootName then
    { st with stack := (n.indent, rootPath) :: st.stack,
              trace := st.trace ++ [.wrapA n.name] }
  else
    let stack := popStack st.stack n.indent
    let target := nodeTarget rootPath st.stack n
    if n.isDir then
      let stack' := (n.indent, target) :: stack
      if existsP st.fs target then
        { st with stack := stack' }
      else
        let md := mkdirs st.fs target
        if md.2 then
          { fs := md.1, stack := stack',
            stats := { st.stats with dirs := st.stats.dirs + 1 },
            trace := st.trace ++ [.mkdirA target] }
        else
          { fs := md.1, stack := stack', stats := st.stats,
            trace := st.trace ++ [.errA target] }
    else
      if existsP st.fs target then
        { st with stack := stack,
                  stats := { st.stats with skipped := st.stats.skipped + 1 },
                  trace := st.trace ++ [.skipA target] }
      else
        let loose := joinPath rootPath n.name
        if existsP st.fs loose ∧ isfileP st.fs loose then
          let rc := resolve_collision st.fs target 0
          let mv := moveFile st.fs loose rc.1
          if mv.2 then
            { fs := mv.1, stack := stack,
              stats := { st.stats with moved := st.stats.moved + 1 },
              trace := st.trace ++ [.moveA loose rc.1 rc.2] }
          else
            { fs := mv.1, stack := stack, stats := st.stats,
              trace := st.trace ++ [.errA rc.1] }
        else
          let parent := target.dropLast
          let md := if existsP st.fs parent then (st.fs, true) else mkdirs st.fs parent
          if md.2 then
            let wr := writeFileAt md.1 target ("# Placeholder for " ++ n.name)
            if wr.2 then
              { fs := wr.1, stack := stack,
                stats := { st.stats with files := st.stats.files + 1 },
                trace := st.trace ++ [.newA target] }
            else
              { fs := wr.1, stack := stack, stats := st.stats,
                trace := st.trace ++ [.errA target] }
          else
            { fs := md.1, stack := stack, stats := st.stats,
              trace := st.trace ++ [.errA target] }

/-- The `for i, node in enumerate(nodes)` loop: the flag distinguishes
`i == 0` and is cleared after the first node. -/
def buildGo (rootName : String) (rootPath : Path) :
    BState → Bool → List Node → BState
  | st, _, [] => st
  | st, first, n :: ns =>
    buildGo rootName rootPath (processNode rootName rootPath first st n) false ns

/-- Model of `build_tree_from_nodes(nodes)` over a starting filesystem, with the
process working directory abstracted into `rootName`/`rootPath`. -/
def build_tree_from_nodes (rootName : String) (rootPath : Path) (fs0 : FS)
    (nodes : List Node) : BState :=
  buildGo rootName rootPath
    { fs := fs0, stack := [], stats := ⟨0, 0, 0, 0⟩, trace := [] } true nodes

/-! ### Parsing: `sanitize_name`, `parse_line_content`, `identify_nodes` -/

/-- The characters removed by `re.sub(r'[<>:"|?*]', '', name)`. -/
def sanitizeChars : List Char := ['<', '>', ':', '"', '|', '?', '*']

/-- Model of `name.replace('..', '')`: remove non-overlapping occurrences of the
two-character parent-traversal sequence, scanning left to right. -/
def removeDotDot : List Char → List Char
  | '.' :: '.' :: r => removeDotDot r
  | c :: r => c :: removeDotDot r
  | [] => []

/-- Model of `str.strip()`: trim leading and trailing whitespace. -/
def strTrim (s : String) : String :=
  ⟨((s.data.dropWhile Char.isWhitespace).reverse.dropWhile Char.isWhitespace).reverse⟩

/-- Model of `str.rstrip()`: trim trailing whitespace. -/
def rstripStr (s : String) : String :=
  ⟨(s.data.reverse.dropWhile Char.isWhitespace).reverse⟩

/-- Model of `sanitize_name`: drop `'..'` occurrences, drop the characters illegal on
common filesystems, trim whitespace.  (The source guards the `replace` with
an `if '..' in name`, which is redundant: `replace` is the identity when the
pattern is absent.)  Note the order: the traversal sequence is removed
before the illegal characters are, which is what theorem `c7_code_bug`
exploits. -/
def sanitize_name (name : String) : String :=
  let n1 : String := ⟨removeDotDot name.data⟩
  let n2 : String := ⟨n1.data.filter (fun c => !sanitizeChars.contains c)⟩
  strTrim n2

/-- The character class of the source regex `r'^([\s│├└─|+\-\\t]*)(.*)'`.
Read off the raw string literally, its members are: whitespace (`\s`), the
box-drawing glyphs `│ ├ └ ─`, `|`, `+`, `-` (written `\-`), a literal
backslash (written `\\`) and a literal letter `t` — the trailing `\\t` is an
escaped backslash followed by `t`, not a tab (tab is already matched by
`\s`). -/
def isTreePrefixChar (c : Char) : Bool :=
  c.isWhitespace || c = '│' || c = '├' || c = '└' || c = '─' || c = '|' ||
    c = '+' || c = '-' || c = '\\' || c = 't'

/-- Model of `line.split('#')[0]`: the part of the line before the first `'#'`. -/
def splitHash (s : String) : String :=
  ⟨s.data.takeWhile (fun c => c ≠ '#')⟩

/-- Width contributed by one prefix character after
`prefix.replace('\t', '    ')`: a tab counts as 4, anything else as 1. -/
def tabWidth (c : Char) : Nat :=
  if c = '\t' then 4 else 1

/-- Model of `parse_line_content(line)`: strip the comment and trailing whitespace;
a blank line is not a node; split off the leading run of
whitespace/tree-glyph characters (see `isTreePrefixChar`), the rest, trimmed,
is the candidate name (empty again means: not a node); the indent is the
character length of the prefix with tabs expanded to width 4.  (The regex
`^(...)(.*)` always matches, so the `if not match` branch of the source is
dead and has no counterpart here.) -/
def parse_line_content (line : String) : Option String × Nat :=
  let l1 := rstripStr (splitHash line)
  if strTrim l1 = "" then (none, 0)
  else
    let pfxChars := l1.data.takeWhile isTreePrefixChar
    let rawName := strTrim ⟨l1.data.dropWhile isTreePrefixChar⟩
    if rawName = "" then (none, 0)
    else (some rawName, (pfxChars.map tabWidth).sum)

/-- Model of `str.strip(chars)`: remove the given characters from both ends. -/
def stripCharsBoth (chars : List Char) (s : String) : String :=
  ⟨((s.data.dropWhile (fun c => chars.contains c)).reverse.dropWhile
      (fun c => chars.contains c)).reverse⟩

/-- Model of `str.lstrip(chars)`: remove the given characters from the left end. -/
def lstripChars (chars : List Char) (s : String) : String :=
  ⟨s.data.dropWhile (fun c => chars.contains c)⟩

/-- The characters of `name.strip('*"`\'')` in `identify_nodes`:
asterisk, double quote, backtick (code 96), single quote (code 39). -/
def quoteChars : List Char := ['*', '"', Char.ofNat 96, Char.ofNat 39]

/-- The fixed known-directory-name set of the last type-inference rule. -/
def common_dirs : List String :=
  ["src", "public", "assets", "components", "bin", "lib", "tests", "docs",
   "config", "dist", "build", "utils", "styles"]

/-- Rule 2 of the type pass: `'.' in name and not name.startswith('.')`. -/
def nameDotRule (s : String) : Bool :=
  s.data.contains '.' && !(startsWithChar '.' s)

/-- The type-inference cascade of the second pass of `identify_nodes`, for
one node given the following node (if any): trailing separator → dotted
name → more-indented follower → known-directory-name set. -/
def typeNode (cur : String × Nat) (next? : Option (String × Nat)) : Node :=
  if endsWithChar '/' cur.1 || endsWithChar '\\' cur.1 then
    ⟨stripCharsBoth ['/', '\\'] cur.1, cur.2, true⟩
  else if nameDotRule cur.1 then ⟨cur.1, cur.2, false⟩
  else if (match next? with | some nx => decide (cur.2 < nx.2) | none => false) then
    ⟨cur.1, cur.2, true⟩
  else ⟨cur.1, cur.2, decide (strLower cur.1 ∈ common_dirs)⟩

/-- The second pass of `identify_nodes`: assign `is_dir` to every collected
node, looking one node ahead. -/
def typePass : List (String × Nat) → List Node
  | [] => []
  | c :: rest => typeNode c rest.head? :: typePass rest

/-- Model of `identify_nodes(lines)`: per line, classify via `parse_line_content`,
strip quotes and leading path separators, sanitize; names that end up empty
produce no node; then run the type-inference pass. -/
def identify_nodes (lines : List String) : List Node :=
  typePass (lines.filterMap (fun line =>
    match parse_line_content line with
    | (none, _) => none
    | (some name, indent) =>
      let n1 := stripCharsBoth quoteChars name
      let n2 := lstripChars ['/', '\\'] n1
      let n3 := sanitize_name n2
      if n3 = "" then none else some (n3, indent)))

/-- Does a string contain the two-character parent-traversal sequence? -/
def hasDotDot : List Char → Bool
  | '.' :: '.' :: _ => true
  | _ :: r => hasDotDot r
  | [] => false

/-! ### `read_text_file`: binary detection and encoding fallback

A file is modelled as its byte sequence (`List Nat`), `none` standing for a
file that cannot be opened.  Decoded text is a sequence of code points. -/

/-- Is the byte a UTF-8 continuation byte (`0x80–0xBF`)? -/
def isCont (b : Nat) : Bool :=
  0x80 ≤ b && b ≤ 0xBF

/-- Lower bound for the second byte of a UTF-8 sequence led by `b`
(strict decoding: rejects overlong forms). -/
def cont2lo (b : Nat) : Nat :=
  if b = 0xE0 then 0xA0 else if b = 0xF0 then 0x90 else 0x80

/-- Upper bound for the second byte of a UTF-8 sequence led by `b`
(strict decoding: rejects surrogates and code points above `0x10FFFF`). -/
def cont2hi (b : Nat) : Nat :=
  if b = 0xED then 0x9F else if b = 0xF4 then 0x8F else 0xBF

/-- Strict UTF-8 decoding to code points (`None` on any invalid sequence),
as performed by Python's `utf-8` codec with default (strict) error
handling. -/
def utf8Decode : List Nat → Option (List Nat)
  | [] => some []
  | b :: rest =>
    if b < 0x80 then (utf8Decode rest).map (fun t => b :: t)
    else if b < 0xC2 then none
    else if b ≤ 0xDF then
      match rest with
      | b2 :: r =>
        if isCont b2 then
          (utf8Decode r).map (fun t => ((b - 0xC0) * 0x40 + (b2 - 0x80)) :: t)
        else none
      | [] => none
    else if b ≤ 0xEF then
      match rest with
      | b2 :: b3 :: r =>
        if cont2lo b ≤ b2 && b2 ≤ cont2hi b && isCont b3 then
          (utf8Decode r).map
            (fun t => ((b - 0xE0) * 0x1000 + (b2 - 0x80) * 0x40 + (b3 - 0x80)) :: t)
        else none
      | _ => none
    else if b ≤ 0xF4 then
      match rest with
      | b2 :: b3 :: b4 :: r =>
        if cont2lo b ≤ b2 && b2 ≤ cont2hi b && isCont b3 && isCont b4 then
          (utf8Decode r).map (fun t =>
            ((b - 0xF0) * 0x40000 + (b2 - 0x80) * 0x1000 +
              (b3 - 0x80) * 0x40 + (b4 - 0x80)) :: t)
        else none
      | _ => none
    else none

/-- The `utf-8-sig` codec: strip a leading BOM (`EF BB BF`) if present, then
decode strict UTF-8. -/
def utf8SigDecode (bs : List Nat) : Option (List Nat) :=
  match bs with
  | 0xEF :: 0xBB :: 0xBF :: r => utf8Decode r
  | _ => utf8Decode bs

/-- Universal-newline translation of text mode: `\r\n` and bare `\r` both
become `\n` (code points 13, 10). -/
def univNewlines : List Nat → List Nat
  | 13 :: 10 :: r => 10 :: univNewlines r
  | 13 :: r => 10 :: univNewlines r
  | c :: r => c :: univNewlines r
  | [] => []

/-- Model of `f.readlines()` on decoded text: chunks that keep their trailing newline;
a final chunk without a newline is kept, an empty tail is not. -/
def splitLinesGo (acc : List Nat) : List Nat → List (List Nat)
  | [] => if acc = [] then [] else [acc.reverse]
  | c :: r =>
    if c = 10 then (acc.reverse ++ [10]) :: splitLinesGo [] r
    else splitLinesGo (c :: acc) r

/-- Decoded code points to the list of lines `readlines` returns. -/
def toLines (cs : List Nat) : List (List Nat) :=
  splitLinesGo [] (univNewlines cs)

/-- Model of `read_text_file(filepath)`: `none` for an unopenable file; reject as
binary when a null byte occurs in the first 1024 bytes; otherwise try the
encodings `utf-8-sig`, `utf-8`, `latin-1` in that order and return the lines
of the first decode that succeeds.  `latin-1` maps every byte to the code
point of the same value and never fails, so the trailing `return None` of
the source loop is unreachable and has no counterpart here. -/
def read_text_file (file? : Option (List Nat)) : Option (List (List Nat)) :=
  match file? with
  | none => none
  | some bs =>
    if (bs.take 1024).contains 0 then none
    else
      match utf8SigDecode bs with
      | some cs => some (toLines cs)
      | none =>
        match utf8Decode bs with
        | some cs => some (toLines cs)
        | none => some (toLines bs)

/-! ### Serialization: `generate_tree_string`

The on-disk tree being serialized is a finite association list from paths to
entries; a third entry kind models symbolic links, storing the target string
`os.readlink` reports.  The code never resolves a link target, so cyclic
links are representable and harmless.  `fnmatch.fnmatch` (a Python library
routine) is abstracted as a `matcher` parameter; `SCRIPT_NAME` (runtime
value of `sys.argv[0]`) as a `scriptName` parameter.  The recursion of the
source is unbounded; the `fuel` argument is an artifact of the embedding and
theorem `c6_symlink_leaf` proves a concrete bound suffices. -/

/-- A serializer-side filesystem entry: file, directory, or symbolic link
with its readlink target. -/
inductive SEntry where
  | sfile
  | sdir
  | slink (target : String)
deriving DecidableEq

/-- The serializer-side filesystem: a finite association list. -/
abbrev SFS := List (Path × SEntry)

/-- Look up the first entry with the given path. -/
def lookupS (fs : SFS) (p : Path) : Option SEntry :=
  match fs.find? (fun e => decide (e.1 = p)) with
  | some e => some e.2
  | none => none

/-- The `SYSTEM_EXCLUDES` set, with the runtime script name a parameter. -/
def SYSTEM_EXCLUDES (scriptName : String) : List String :=
  [scriptName, "__pycache__", ".git", ".venv", "venv", "node_modules",
   ".DS_Store", ".env", ".gitignore", "thumbs.db", ".idea", ".vscode"]

/-- Model of `pattern.rstrip('/')`. -/
def rstripSlashes (s : String) : String :=
  ⟨(s.data.reverse.dropWhile (fun c => c = '/')).reverse⟩

/-- Model of `should_ignore(name, relative_path, ignore_patterns)`: some pattern,
with trailing slashes removed, matches the bare name or the relative path
(`fnmatch` abstracted as `matcher`).  The empty-pattern-list early return of
the source coincides with `List.any` on `[]`. -/
def should_ignore (matcher : String → String → Bool) (name rel : String)
    (pats : List String) : Bool :=
  pats.any (fun pat => matcher name (rstripSlashes pat) ||
    matcher rel (rstripSlashes pat))

/-- Lexicographic comparison of character lists by code point, as Python
compares strings. -/
def lexLe : List Char → List Char → Bool
  | [], _ => true
  | _ :: _, [] => false
  | a :: as, b :: bs =>
    if a.toNat < b.toNat then true
    else if b.toNat < a.toNat then false
    else lexLe as bs

/-- Model of `a <= b` on strings, by code point. -/
def strLe (a b : String) : Bool :=
  lexLe a.data b.data

/-- Insert into a `strLe`-sorted list, keeping it sorted. -/
def insertSorted (x : String) : List String → List String
  | [] => [x]
  | y :: r => if strLe x y then x :: y :: r else y :: insertSorted x r

/-- Model of `sorted(...)` on strings (insertion sort, ascending). -/
def sortStrings : List String → List String
  | [] => []
  | x :: r => insertSorted x (sortStrings r)

/-- Model of `sorted(os.listdir(dir_path))`: the names whose path lies directly under
`p`, deduplicated, in lexicographic order. -/
def childNames (fs : SFS) (p : Path) : List String :=
  sortStrings ((fs.filterMap
    (fun e => if e.1.dropLast = p then e.1.getLast? else none)).dedup)

/-- Model of `os.path.relpath(os.path.join(dir_path, item))` relative to the
serialization root (the working directory): the components below the root,
joined with the separator. -/
def relString (root p : Path) : String :=
  match p.drop root.length with
  | [] => "."
  | c :: r => r.foldl (fun a s => a ++ "/" ++ s) c

/-- The `files`/`dirs` counters of the serializer. -/
structure SStats where
  files : Nat
  dirs : Nat
deriving DecidableEq

/-- The filter pipeline applied to `sorted(os.listdir(dir_path))`: drop
`SYSTEM_EXCLUDES` members, dotfiles, and ignore-pattern matches. -/
def visibleItems (matcher : String → String → Bool) (scriptName : String)
    (pats : List String) (root : Path) (fs : SFS) (dirPath : Path) : List String :=
  (childNames fs dirPath).filter (fun it =>
    !(SYSTEM_EXCLUDES scriptName).contains it &&
    !startsWithChar '.' it &&
    !should_ignore matcher it (relString root (dirPath ++ [it])) pats)

/-- The `for i, item in enumerate(items)` loop of `generate_tree_string`:
`is_last` decides the connector and the prefix extension; a symbolic link is
rendered as a single leaf line `item -> target` and never recursed into; a
directory is rendered and recursed into through `render`; anything else is a
plain file line.  Output string and statistics are threaded exactly as the
source accumulates them. -/
def gtsItems (render : Path → String → SStats → String × SStats) (fs : SFS)
    (dirPath : Path) (pfx : String) : List String → SStats → String × SStats
  | [], stats => ("", stats)
  | item :: rest, stats =>
    let isLast := rest.isEmpty
    let connector := if isLast then "└── " else "├── "
    let full := dirPath ++ [item]
    match lookupS fs full with
    | some (.slink t) =>
      let line := pfx ++ connector ++ item ++ " -> " ++ t ++ "\n"
      let res := gtsItems render fs dirPath pfx rest
        { stats with files := stats.files + 1 }
      (line ++ res.1, res.2)
    | some .sdir =>
      let pfx2 := pfx ++ (if isLast then "    " else "│   ")
      let sub := render full pfx2 { stats with dirs := stats.dirs + 1 }
      let res := gtsItems render fs dirPath pfx rest sub.2
      (pfx ++ connector ++ item ++ "/\n" ++ sub.1 ++ res.1, res.2)
    | _ =>
      let res := gtsItems render fs dirPath pfx rest
        { stats with files := stats.files + 1 }
      (pfx ++ connector ++ item ++ "\n" ++ res.1, res.2)

/-- Model of `generate_tree_string(dir_path, prefix, stats, ignore_patterns)`.  The
recursive call for a child directory decreases the fuel; with fuel `0` the
walk is cut off (theorem `c6_symlink_leaf` shows any fuel larger than the
number of proper descendants of `dirPath` gives the same result). -/
def generate_tree_string (matcher : String → String → Bool)
    (scriptName : String) (pats : List String) (root : Path) (fs : SFS) :
    Nat → Path → String → SStats → String × SStats
  | 0, _, _, stats => ("", stats)
  | fuel + 1, dirPath, pfx, stats =>
    gtsItems (fun p pf s => generate_tree_string matcher scriptName pats root fs fuel p pf s)
      fs dirPath pfx (visibleItems matcher scriptName pats root fs dirPath) stats

/-- Number of newline characters in a string. -/
def countNL (s : String) : Nat :=
  s.data.countP (fun c => c = '\n')

/-- Does `q` strictly extend `p` (is `p` a proper path prefix of `q`)? -/
def strictExt (p q : Path) : Prop :=
  p <+: q ∧ p ≠ q

/-- Number of entries of `fs` strictly below `p` — recursion into a child
directory strictly decreases it. -/
def extCount (fs : SFS) (p : Path) : Nat :=
  fs.countP (fun e => decide (p <+: e.1) && decide (p ≠ e.1))

/-- The part of a serializer filesystem that does not lie strictly below
`l` — two filesystems with the same `offLink l` part differ only in what
hangs below the path `l`. -/
def offLink (l : Path) (fs : SFS) : SFS :=
  fs.filter (fun e => !(decide (l <+: e.1) && decide (l ≠ e.1)))

/-! ### Concrete scenarios used by counterexamples and witnesses -/

/-- A filesystem holding only the working root `["r"]`. -/
def rootOnlyFS : FS :=
  fun p => if p = ["r"] then some .dir else none

/-- The working root plus a loose file `a.txt` with content `"data"`. -/
def preFS : FS :=
  fun p =>
    if p = ["r"] then some .dir
    else if p = ["r", "a.txt"] then some (.file "data") else none

/-- A node list whose first file node targets the pre-existing `r/a.txt` and
whose last node adopts that same loose file into `r/sub/`. -/
def moveNodes : List Node :=
  [⟨"a.txt", 0, false⟩, ⟨"sub", 0, true⟩, ⟨"a.txt", 2, false⟩]

/-- The node list of the depth-reconstruction scenario:
indents `[0,2,2,4,2,0]`, types directory/file/directory/file/file/directory. -/
def c2Nodes : List Node :=
  [⟨"a", 0, true⟩, ⟨"b", 2, false⟩, ⟨"c", 2, true⟩, ⟨"d", 4, false⟩,
   ⟨"e", 2, false⟩, ⟨"f", 0, true⟩]

/-- Working root plus an existing `report.txt`. -/
def repFS : FS :=
  fun p =>
    if p = ["r"] then some .dir
    else if p = ["r", "report.txt"] then some (.file "x") else none

/-- A single file node named `report.txt` at indent 0. -/
def repNodes : List Node := [⟨"report.txt", 0, false⟩]

/-- Working root plus `report.txt`, `report_1.txt`, `report_2.txt` (the
`N = 3` instance of the collision-determinism scenario). -/
def repNFS : FS :=
  fun p =>
    if p = ["r"] then some .dir
    else if p = ["r", "report.txt"] then some (.file "0")
    else if p = ["r", "report_1.txt"] then some (.file "1")
    else if p = ["r", "report_2.txt"] then some (.file "2")
    else none

/-- A serializer filesystem with a directory symlink forming a cycle:
`d` is a directory containing `loop`, a symlink whose target points back
up, and a plain file `z.txt`. -/
def linkSFS : SFS :=
  [(["d"], .sdir), (["d", "loop"], .slink "../d"), (["d", "z.txt"], .sfile)]

/-- A variant of `linkSFS` with extra entries below the symlink path —
exactly the part of the filesystem the serializer must never look at. -/
def linkSFS2 : SFS :=
  [(["d"], .sdir), (["d", "loop"], .slink "../d"), (["d", "z.txt"], .sfile),
   (["d", "loop", "ghost.txt"], .sfile)]

/-! ### Basic properties of the filesystem effects -/

theorem FS.upd_pres (fs : FS) (p0 : Path) (e0 : Option FEntry) (p : Path)
    (e : FEntry) (h : fs p = some e) (hne : p ≠ p0) :
    fs.upd p0 e0 p = some e := by
  simp [FS.upd, hne, h]

theorem mkdirsGo_pres : ∀ (cs : List String) (fs : FS) (cur p : Path) (e : FEntry),
    fs p = some e → (mkdirsGo fs cur cs).1 p = some e := by
  intro cs
  induction cs with
  | nil => intro fs cur p e h; simpa [mkdirsGo] using h
  | cons c cs ih =>
    intro fs cur p e h
    simp only [mkdirsGo]
    cases hfc : fs (cur ++ [c]) with
    | none =>
      have hne : p ≠ cur ++ [c] := by
        intro heq; rw [heq, hfc] at h; exact Option.noConfusion h
      exact ih _ _ _ _ (FS.upd_pres fs _ _ p e h hne)
    | some ent =>
      cases ent with
      | dir => exact ih _ _ _ _ h
      | file s => simpa using h

theorem mkdirs_pres (fs : FS) (target p : Path) (e : FEntry) (h : fs p = some e) :
    (mkdirs fs target).1 p = some e := by
  by_cases ht : target = []
  · simp [mkdirs, ht, h]
  · simp only [mkdirs, if_neg ht]
    exact mkdirsGo_pres target fs [] p e h

theorem mkdirsGo_frame_len : ∀ (cs : List String) (fs : FS) (cur p : Path),
    cur.length + cs.length < p.length → (mkdirsGo fs cur cs).1 p = fs p := by
  intro cs
  induction cs with
  | nil => intro fs cur p _; simp [mkdirsGo]
  | cons c cs ih =>
    intro fs cur p hlen
    simp only [List.length_cons] at hlen
    have hlen' : (cur ++ [c]).length + cs.length < p.length := by
      simp only [List.length_append, List.length_singleton]; omega
    simp only [mkdirsGo]
    cases hfc : fs (cur ++ [c]) with
    | none =>
      rw [ih _ _ _ hlen']
      have hne : p ≠ cur ++ [c] := by
        intro heq
        rw [heq] at hlen
        simp only [List.length_append, List.length_singleton] at hlen
        omega
      simp [FS.upd, hne]
    | some ent =>
      cases ent with
      | dir => exact ih _ _ _ hlen'
      | file s => rfl

theorem mkdirsGo_ok_target : ∀ (cs : List String) (fs : FS) (cur : Path),
    cs ≠ [] → (mkdirsGo fs cur cs).2 = true →
    (mkdirsGo fs cur cs).1 (cur ++ cs) = some .dir := by
  intro cs
  induction cs with
  | nil => intro fs cur h; exact absurd rfl h
  | cons c cs ih =>
    intro fs cur _ hok
    have hsplit : cur ++ c :: cs = (cur ++ [c]) ++ cs := by simp
    rw [hsplit]
    simp only [mkdirsGo] at hok ⊢
    cases hfc : fs (cur ++ [c]) with
    | none =>
      rw [hfc] at hok
      cases cs with
      | nil =>
        simp [mkdirsGo, FS.upd]
      | cons c2 cs2 =>
        exact ih _ _ (by simp) hok
    | some ent =>
      cases ent with
      | dir =>
        rw [hfc] at hok
        cases cs with
        | nil => simpa [mkdirsGo] using hfc
        | cons c2 cs2 => exact ih _ _ (by simp) hok
      | file s => rw [hfc] at hok; simp at hok

theorem mkdirs_ok_target (fs : FS) (target : Path) (hok : (mkdirs fs target).2 = true) :
    (mkdirs fs target).1 target = some .dir := by
  by_cases ht : target = []
  · rw [ht] at hok ⊢; simp [mkdirs] at hok
  · simp only [mkdirs, if_neg ht] at hok ⊢
    simpa using mkdirsGo_ok_target target fs [] ht hok

theorem writeFileAt_frame (fs : FS) (target : Path) (content : String) (p : Path)
    (hne : p ≠ target) : (writeFileAt fs target content).1 p = fs p := by
  unfold writeFileAt
  by_cases h : isdirP fs target.dropLast = true ∧ isdirP fs target = false
  · simp [if_pos h, FS.upd, hne]
  · simp [if_neg h]

theorem writeFileAt_ok (fs : FS) (target : Path) (content : String)
    (hok : (writeFileAt fs target content).2 = true) :
    (writeFileAt fs target content).1 target = some (.file content) := by
  unfold writeFileAt at hok ⊢
  by_cases h : isdirP fs target.dropLast = true ∧ isdirP fs target = false
  · simp [if_pos h, FS.upd]
  · simp [if_neg h] at hok

theorem isfileP_spec (fs : FS) (p : Path) (h : isfileP fs p = true) :
    ∃ c, fs p = some (.file c) := by
  unfold isfileP at h
  cases hp : fs p with
  | none => rw [hp] at h; simp at h
  | some e =>
    cases e with
    | dir => rw [hp] at h; simp at h
    | file c => exact ⟨c, rfl⟩

theorem moveFile_spec (fs : FS) (s d : Path) (hok : (moveFile fs s d).2 = true) :
    ∃ c, fs s = some (.file c) ∧ fs d = none ∧
      (moveFile fs s d).1 = (fs.upd s none).upd d (some (.file c)) := by
  unfold moveFile at hok ⊢
  by_cases h : isfileP fs s = true ∧ fs d = none ∧ isdirP fs d.dropLast = true
  · obtain ⟨c, hc⟩ := isfileP_spec fs s h.1
    exact ⟨c, hc, h.2.1, by simp [if_pos h, hc]⟩
  · simp [if_neg h] at hok

theorem moveFile_fail (fs : FS) (s d : Path) (hfail : (moveFile fs s d).2 = false) :
    (moveFile fs s d).1 = fs := by
  unfold moveFile at hfail ⊢
  by_cases h : isfileP fs s = true ∧ fs d = none ∧ isdirP fs d.dropLast = true
  · simp [if_pos h] at hfail
  · simp [if_neg h]

/-- Model of `resolve_collision` on a non-existing target returns it unchanged and
reports no rename (the first check of the source function). -/
theorem resolve_collision_notexists (fs : FS) (t : Path) (fuel : Nat)
    (h : existsP fs t = false) : resolve_collision fs t fuel = (t, false) := by
  simp [resolve_collision, h]

/-! ### Branch equations for `processNode` -/

theorem processNode_wrap (RN : String) (RP : Path) (first : Bool) (st : BState)
    (n : Node) (hw : wrapCond RN first n) :
    processNode RN RP first st n =
      { st with stack := (n.indent, RP) :: st.stack,
                trace := st.trace ++ [.wrapA n.name] } := by
  obtain ⟨h1, h2, h3⟩ := hw
  simp [processNode, h1, h2, h3]

theorem processNode_dir_exists (RN : String) (RP : Path) (first : Bool)
    (st : BState) (n : Node) (hw : ¬ wrapCond RN first n) (hd : n.isDir = true)
    (he : existsP st.fs (nodeTarget RP st.stack n) = true) :
    processNode RN RP first st n =
      { st with stack := (n.indent, nodeTarget RP st.stack n) :: popStack st.stack n.indent } := by
  have hw' : ¬ (first = true ∧ n.isDir = true ∧ strLower n.name = strLower RN) := hw
  rw [processNode, if_neg hw']
  simp [hd, he]

theorem processNode_dir_new (RN : String) (RP : Path) (first : Bool)
    (st : BState) (n : Node) (hw : ¬ wrapCond RN first n) (hd : n.isDir = true)
    (he : existsP st.fs (nodeTarget RP st.stack n) = false) :
    processNode RN RP first st n =
      (if (mkdirs st.fs (nodeTarget RP st.stack n)).2 then
        { fs := (mkdirs st.fs (nodeTarget RP st.stack n)).1,
          stack := (n.indent, nodeTarget RP st.stack n) :: popStack st.stack n.indent,
          stats := { st.stats with dirs := st.stats.dirs + 1 },
          trace := st.trace ++ [.mkdirA (nodeTarget RP st.stack n)] }
      else
        { fs := (mkdirs st.fs (nodeTarget RP st.stack n)).1,
          stack := (n.indent, nodeTarget RP st.stack n) :: popStack st.stack n.indent,
          stats := st.stats,
          trace := st.trace ++ [.errA (nodeTarget RP st.stack n)] }) := by
  have hw' : ¬ (first = true ∧ n.isDir = true ∧ strLower n.name = strLower RN) := hw
  rw [processNode, if_neg hw']
  simp [hd, he]

theorem processNode_skip (RN : String) (RP : Path) (first : Bool)
    (st : BState) (n : Node) (hw : ¬ wrapCond RN first n) (hd : n.isDir = false)
    (he : existsP st.fs (nodeTarget RP st.stack n) = true) :
    processNode RN RP first st n =
      { st with stack := popStack st.stack n.indent,
                stats := { st.stats with skipped := st.stats.skipped + 1 },
                trace := st.trace ++ [.skipA (nodeTarget RP st.stack n)] } := by
  have hw' : ¬ (first = true ∧ n.isDir = true ∧ strLower n.name = strLower RN) := hw
  rw [processNode, if_neg hw']
  simp [hd, he]

theorem processNode_adopt (RN : String) (RP : Path) (first : Bool)
    (st : BState) (n : Node) (hw : ¬ wrapCond RN first n) (hd : n.isDir = false)
    (he : existsP st.fs (nodeTarget RP st.stack n) = false)
    (hl : existsP st.fs (joinPath RP n.name) = true)
    (hf : isfileP st.fs (joinPath RP n.name) = true) :
    processNode RN RP first st n =
      (if (moveFile st.fs (joinPath RP n.name) (nodeTarget RP st.stack n)).2 then
        { fs := (moveFile st.fs (joinPath RP n.name) (nodeTarget RP st.stack n)).1,
          stack := popStack st.stack n.indent,
          stats := { st.stats with moved := st.stats.moved + 1 },
          trace := st.trace ++
            [.moveA (joinPath RP n.name) (nodeTarget RP st.stack n) false] }
      else
        { fs := (moveFile st.fs (joinPath RP n.name) (nodeTarget RP st.stack n)).1,
          stack := popStack st.stack n.indent,
          stats := st.stats,
          trace := st.trace ++ [.errA (nodeTarget RP st.stack n)] }) := by
  have hw' : ¬ (first = true ∧ n.isDir = true ∧ strLower n.name = strLower RN) := hw
  rw [processNode, if_neg hw']
  simp [hd, he, hl, hf, resolve_collision_notexists st.fs _ 0 he]

theorem processNode_pop_sound (st : List (Nat × Path)) (i : Nat)
    (h : st.Pairwise (fun a b => b.1 < a.1)) :
    popStack st i = st.filter (fun e => decide (e.1 < i)) := by
  induction st with
  | nil => rfl
  | cons e t ih =>
    rw [List.pairwise_cons] at h
    by_cases he : e.1 ≥ i
    · have h2 : ¬ e.1 < i := by omega
      simp only [popStack, List.dropWhile_cons, List.filter_cons, he, h2, decide_True,
        decide_False, if_true, if_false]
      exact ih h.2
    · have he' : e.1 < i := by omega
      simp only [popStack, List.dropWhile_cons, List.filter_cons, he, he', decide_True,
        decide_False, if_true, if_false]
      have hself : List.filter (fun e : Nat × Path => decide (e.1 < i)) t = t := by
        refine List.filter_eq_self.mpr ?_
        intro a ha
        have := h.1 a ha
        simp only [decide_eq_true_eq]
        omega
      simp [hself]

theorem processNode_scaffold (RN : String) (RP : Path) (first : Bool)
    (st : BState) (n : Node) (hw : ¬ wrapCond RN first n) (hd : n.isDir = false)
    (he : existsP st.fs (nodeTarget RP st.stack n) = false)
    (hl : ¬ (existsP st.fs (joinPath RP n.name) = true ∧
             isfileP st.fs (joinPath RP n.name) = true)) :
    processNode RN RP first st n =
      (let target := nodeTarget RP st.stack n
       let md := if existsP st.fs target.dropLast then (st.fs, true)
                 else mkdirs st.fs target.dropLast
       if md.2 then
         let wr := writeFileAt md.1 target ("# Placeholder for " ++ n.name)
         if wr.2 then
           { fs := wr.1, stack := popStack st.stack n.indent,
             stats := { st.stats with files := st.stats.files + 1 },
             trace := st.trace ++ [.newA target] }
         else
           { fs := wr.1, stack := popStack st.stack n.indent, stats := st.stats,
             trace := st.trace ++ [.errA target] }
       else
         { fs := md.1, stack := popStack st.stack n.indent, stats := st.stats,
           trace := st.trace ++ [.errA target] }) := by
  have hw' : ¬ (first = true ∧ n.isDir = true ∧ strLower n.name = strLower RN) := hw
  rw [processNode, if_neg hw']
  simp only [hd, Bool.false_eq_true, if_false, he, if_neg hl]

end DirCtl

namespace DirCtl

/-- Exhaustive classification of one `build_tree_from_nodes` loop iteration:
exactly one of the ten branches of the source applies, with the resulting
state given explicitly in each case. -/
theorem processNode_classify (RN : String) (RP : Path) (first : Bool)
    (st : BState) (n : Node) :
    (wrapCond RN first n ∧ processNode RN RP first st n =
      { st with stack := (n.indent, RP) :: st.stack,
                trace := st.trace ++ [.wrapA n.name] }) ∨
    (¬ wrapCond RN first n ∧
      (let target := nodeTarget RP st.stack n
       let stack := popStack st.stack n.indent
       (n.isDir = true ∧ existsP st.fs target = true ∧
         processNode RN RP first st n = { st with stack := (n.indent, target) :: stack }) ∨
       (n.isDir = true ∧ existsP st.fs target = false ∧
         (mkdirs st.fs target).2 = true ∧
         processNode RN RP first st n =
           { fs := (mkdirs st.fs target).1, stack := (n.indent, target) :: stack,
             stats := { st.stats with dirs := st.stats.dirs + 1 },
             trace := st.trace ++ [.mkdirA target] }) ∨
       (n.isDir = true ∧ existsP st.fs target = false ∧
         (mkdirs st.fs target).2 = false ∧
         processNode RN RP first st n =
           { fs := (mkdirs st.fs target).1, stack := (n.indent, target) :: stack,
             stats := st.stats, trace := st.trace ++ [.errA target] }) ∨
       (n.isDir = false ∧ existsP st.fs target = true ∧
         processNode RN RP first st n =
           { st with stack := stack,
                     stats := { st.stats with skipped := st.stats.skipped + 1 },
                     trace := st.trace ++ [.skipA target] }) ∨
       (n.isDir = false ∧ existsP st.fs target = false ∧
         existsP st.fs (joinPath RP n.name) = true ∧
         isfileP st.fs (joinPath RP n.name) = true ∧
         (moveFile st.fs (joinPath RP n.name) target).2 = true ∧
         processNode RN RP first st n =
           { fs := (moveFile st.fs (joinPath RP n.name) target).1, stack := stack,
             stats := { st.stats with moved := st.stats.moved + 1 },
             trace := st.trace ++ [.moveA (joinPath RP n.name) target false] }) ∨
       (n.isDir = false ∧ existsP st.fs target = false ∧
         existsP st.fs (joinPath RP n.name) = true ∧
         isfileP st.fs (joinPath RP n.name) = true ∧
         (moveFile st.fs (joinPath RP n.name) target).2 = false ∧
         processNode RN RP first st n =
           { fs := (moveFile st.fs (joinPath RP n.name) target).1, stack := stack,
             stats := st.stats, trace := st.trace ++ [.errA target] }) ∨
       (n.isDir = false ∧ existsP st.fs target = false ∧
         ¬ (existsP st.fs (joinPath RP n.name) = true ∧
            isfileP st.fs (joinPath RP n.name) = true) ∧
         (let md := if existsP st.fs target.dropLast then (st.fs, true)
                    else mkdirs st.fs target.dropLast
          let wr := writeFileAt md.1 target ("# Placeholder for " ++ n.name)
          (md.2 = true ∧ wr.2 = true ∧
            processNode RN RP first st n =
              { fs := wr.1, stack := stack,
                stats := { st.stats with files := st.stats.files + 1 },
                trace := st.trace ++ [.newA target] }) ∨
          (md.2 = true ∧ wr.2 = false ∧
            processNode RN RP first st n =
              { fs := wr.1, stack := stack, stats := st.stats,
                trace := st.trace ++ [.errA target] }) ∨
          (md.2 = false ∧
            processNode RN RP first st n =
              { fs := md.1, stack := stack, stats := st.stats,
                trace := st.trace ++ [.errA target] }))))) := by
  by_cases hw : wrapCond RN first n
  · exact Or.inl ⟨hw, processNode_wrap RN RP first st n hw⟩
  · refine Or.inr ⟨hw, ?_⟩
    cases hd : n.isDir with
    | true =>
      by_cases he : existsP st.fs (nodeTarget RP st.stack n) = true
      · exact Or.inl ⟨rfl, he, processNode_dir_exists RN RP first st n hw hd he⟩
      · have he' : existsP st.fs (nodeTarget RP st.stack n) = false := by
          simpa using he
        have heq := processNode_dir_new RN RP first st n hw hd he'
        by_cases hmk : (mkdirs st.fs (nodeTarget RP st.stack n)).2 = true
        · refine Or.inr (Or.inl ⟨rfl, he', hmk, ?_⟩)
          rw [heq, if_pos hmk]
        · have hmk' : (mkdirs st.fs (nodeTarget RP st.stack n)).2 = false := by
            simpa using hmk
          refine Or.inr (Or.inr (Or.inl ⟨rfl, he', hmk', ?_⟩))
          rw [heq, if_neg hmk]
    | false =>
      by_cases he : existsP st.fs (nodeTarget RP st.stack n) = true
      · exact Or.inr (Or.inr (Or.inr (Or.inl
          ⟨rfl, he, processNode_skip RN RP first st n hw hd he⟩)))
      · have he' : existsP st.fs (nodeTarget RP st.stack n) = false := by
          simpa using he
        by_cases hl : existsP st.fs (joinPath RP n.name) = true ∧
            isfileP st.fs (joinPath RP n.name) = true
        · have heq := processNode_adopt RN RP first st n hw hd he' hl.1 hl.2
          by_cases hmv : (moveFile st.fs (joinPath RP n.name) (nodeTarget RP st.stack n)).2 = true
          · refine Or.inr (Or.inr (Or.inr (Or.inr (Or.inl
              ⟨rfl, he', hl.1, hl.2, hmv, ?_⟩))))
            rw [heq, if_pos hmv]
          · have hmv' : (moveFile st.fs (joinPath RP n.name) (nodeTarget RP st.stack n)).2 = false := by
              simpa using hmv
            refine Or.inr (Or.inr (Or.inr (Or.inr (Or.inr (Or.inl
              ⟨rfl, he', hl.1, hl.2, hmv', ?_⟩)))))
            rw [heq, if_neg hmv]
        · have heq := processNode_scaffold RN RP first st n hw hd he' hl
          refine Or.inr (Or.inr (Or.inr (Or.inr (Or.inr (Or.inr
            ⟨rfl, he', hl, ?_⟩)))))
          by_cases hmd : (if existsP st.fs (nodeTarget RP st.stack n).dropLast then (st.fs, true)
              else mkdirs st.fs (nodeTarget RP st.stack n).dropLast).2 = true
          · by_cases hwr : (writeFileAt (if existsP st.fs (nodeTarget RP st.stack n).dropLast then (st.fs, true)
                else mkdirs st.fs (nodeTarget RP st.stack n).dropLast).1
                (nodeTarget RP st.stack n) ("# Placeholder for " ++ n.name)).2 = true
            · refine Or.inl ⟨hmd, hwr, ?_⟩
              rw [heq]
              simp only [if_pos hmd, if_pos hwr]
            · have hwr' : (writeFileAt (if existsP st.fs (nodeTarget RP st.stack n).dropLast then (st.fs, true)
                  else mkdirs st.fs (nodeTarget RP st.stack n).dropLast).1
                  (nodeTarget RP st.stack n) ("# Placeholder for " ++ n.name)).2 = false := by
                simpa using hwr
              refine Or.inr (Or.inl ⟨hmd, hwr', ?_⟩)
              rw [heq]
              simp only [if_pos hmd, if_neg hwr]
          · have hmd' : (if existsP st.fs (nodeTarget RP st.stack n).dropLast then (st.fs, true)
                else mkdirs st.fs (nodeTarget RP st.stack n).dropLast).2 = false := by
              simpa using hmd
            refine Or.inr (Or.inr ⟨hmd', ?_⟩)
            rw [heq]
            simp only [if_neg hmd]

end DirCtl

namespace DirCtl

/-- No iteration ever logs a renamed move: the adoption branch is entered
only when the target does not exist, where `resolve_collision` reports
`renamed = False`. -/
theorem processNode_renCount (RN : String) (RP : Path) (first : Bool)
    (st : BState) (n : Node) :
    renCount (processNode RN RP first st n).trace = renCount st.trace := by
  have h := processNode_classify RN RP first st n
  simp only at h
  rcases h with ⟨_, heq⟩ | ⟨_, h⟩
  · rw [heq]; simp [renCount, List.countP_append, List.countP_cons]
  · rcases h with ⟨_, _, heq⟩ | ⟨_, _, _, heq⟩ | ⟨_, _, _, heq⟩ | ⟨_, _, heq⟩ |
      ⟨_, _, _, _, _, heq⟩ | ⟨_, _, _, _, _, heq⟩ | ⟨_, _, _, h⟩
    · rw [heq]
    · rw [heq]; simp [renCount, List.countP_append, List.countP_cons]
    · rw [heq]; simp [renCount, List.countP_append, List.countP_cons]
    · rw [heq]; simp [renCount, List.countP_append, List.countP_cons]
    · rw [heq]; simp [renCount, List.countP_append, List.countP_cons]
    · rw [heq]; simp [renCount, List.countP_append, List.countP_cons]
    · rcases h with ⟨_, _, heq⟩ | ⟨_, _, heq⟩ | ⟨_, heq⟩ <;>
        · rw [heq]; simp [renCount, List.countP_append, List.countP_cons]

theorem buildGo_renCount (RN : String) (RP : Path) :
    ∀ (ns : List Node) (st : BState) (first : Bool),
    renCount (buildGo RN RP st first ns).trace = renCount st.trace := by
  intro ns
  induction ns with
  | nil => intro st first; rfl
  | cons n ns ih =>
    intro st first
    rw [buildGo, ih, processNode_renCount]

/-- A non-first iteration never logs a root-wrap skip. -/
theorem processNode_wrapCount_notfirst (RN : String) (RP : Path)
    (st : BState) (n : Node) :
    wrapCount (processNode RN RP false st n).trace = wrapCount st.trace := by
  have h := processNode_classify RN RP false st n
  simp only at h
  rcases h with ⟨⟨hfalse, _⟩, _⟩ | ⟨_, h⟩
  · exact absurd hfalse (by simp)
  · rcases h with ⟨_, _, heq⟩ | ⟨_, _, _, heq⟩ | ⟨_, _, _, heq⟩ | ⟨_, _, heq⟩ |
      ⟨_, _, _, _, _, heq⟩ | ⟨_, _, _, _, _, heq⟩ | ⟨_, _, _, h⟩
    · rw [heq]
    · rw [heq]; simp [wrapCount, List.countP_append, List.countP_cons]
    · rw [heq]; simp [wrapCount, List.countP_append, List.countP_cons]
    · rw [heq]; simp [wrapCount, List.countP_append, List.countP_cons]
    · rw [heq]; simp [wrapCount, List.countP_append, List.countP_cons]
    · rw [heq]; simp [wrapCount, List.countP_append, List.countP_cons]
    · rcases h with ⟨_, _, heq⟩ | ⟨_, _, heq⟩ | ⟨_, heq⟩ <;>
        · rw [heq]; simp [wrapCount, List.countP_append, List.countP_cons]

theorem buildGo_wrapCount_notfirst (RN : String) (RP : Path) :
    ∀ (ns : List Node) (st : BState),
    wrapCount (buildGo RN RP st false ns).trace = wrapCount st.trace := by
  intro ns
  induction ns with
  | nil => intro st; rfl
  | cons n ns ih =>
    intro st
    rw [buildGo, ih, processNode_wrapCount_notfirst]

/-- The moved counter never decreases over one iteration. -/
theorem processNode_moved_ge (RN : String) (RP : Path) (first : Bool)
    (st : BState) (n : Node) :
    st.stats.moved ≤ (processNode RN RP first st n).stats.moved := by
  have h := processNode_classify RN RP first st n
  simp only at h
  rcases h with ⟨_, heq⟩ | ⟨_, h⟩
  · rw [heq]
  · rcases h with ⟨_, _, heq⟩ | ⟨_, _, _, heq⟩ | ⟨_, _, _, heq⟩ | ⟨_, _, heq⟩ |
      ⟨_, _, _, _, _, heq⟩ | ⟨_, _, _, _, _, heq⟩ | ⟨_, _, _, h⟩
    · rw [heq]
    · rw [heq]
    · rw [heq]
    · rw [heq]
    · rw [heq]; simp
    · rw [heq]
    · rcases h with ⟨_, _, heq⟩ | ⟨_, _, heq⟩ | ⟨_, heq⟩ <;> rw [heq]

theorem buildGo_moved_ge (RN : String) (RP : Path) :
    ∀ (ns : List Node) (st : BState) (first : Bool),
    st.stats.moved ≤ (buildGo RN RP st first ns).stats.moved := by
  intro ns
  induction ns with
  | nil => intro st first; exact le_refl _
  | cons n ns ih =>
    intro st first
    rw [buildGo]
    exact le_trans (processNode_moved_ge RN RP first st n) (ih _ false)

/-- The error count never decreases over one iteration. -/
theorem processNode_errCount_ge (RN : String) (RP : Path) (first : Bool)
    (st : BState) (n : Node) :
    errCount st.trace ≤ errCount (processNode RN RP first st n).trace := by
  have h := processNode_classify RN RP first st n
  simp only at h
  rcases h with ⟨_, heq⟩ | ⟨_, h⟩
  · rw [heq]; simp [errCount, List.countP_append]
  · rcases h with ⟨_, _, heq⟩ | ⟨_, _, _, heq⟩ | ⟨_, _, _, heq⟩ | ⟨_, _, heq⟩ |
      ⟨_, _, _, _, _, heq⟩ | ⟨_, _, _, _, _, heq⟩ | ⟨_, _, _, h⟩
    · rw [heq]
    · rw [heq]; simp [errCount, List.countP_append]
    · rw [heq]; simp [errCount, List.countP_append]
    · rw [heq]; simp [errCount, List.countP_append]
    · rw [heq]; simp [errCount, List.countP_append]
    · rw [heq]; simp [errCount, List.countP_append]
    · rcases h with ⟨_, _, heq⟩ | ⟨_, _, heq⟩ | ⟨_, heq⟩ <;>
        · rw [heq]; simp [errCount, List.countP_append]

theorem buildGo_errCount_ge (RN : String) (RP : Path) :
    ∀ (ns : List Node) (st : BState) (first : Bool),
    errCount st.trace ≤ errCount (buildGo RN RP st first ns).trace := by
  intro ns
  induction ns with
  | nil => intro st first; exact le_refl _
  | cons n ns ih =>
    intro st first
    rw [buildGo]
    exact le_trans (processNode_errCount_ge RN RP first st n) (ih _ false)

end DirCtl

namespace DirCtl

/-- An iteration that performs no successful move preserves every existing
filesystem entry (directory creation and scaffolding only write at absent
paths). -/
theorem processNode_pres_nomove (RN : String) (RP : Path) (first : Bool)
    (st : BState) (n : Node)
    (hm : (processNode RN RP first st n).stats.moved = st.stats.moved) :
    ∀ (p : Path) (e : FEntry), st.fs p = some e →
      (processNode RN RP first st n).fs p = some e := by
  intro p e hp
  have h := processNode_classify RN RP first st n
  simp only at h
  rcases h with ⟨_, heq⟩ | ⟨_, h⟩
  · rw [heq]; exact hp
  · rcases h with ⟨_, _, heq⟩ | ⟨_, _, _, heq⟩ | ⟨_, _, _, heq⟩ | ⟨_, _, heq⟩ |
      ⟨_, _, _, _, _, heq⟩ | ⟨_, _, _, _, _, heq⟩ | ⟨_, he', _, h⟩
    · rw [heq]; exact hp
    · rw [heq]; exact mkdirs_pres st.fs _ p e hp
    · rw [heq]; exact mkdirs_pres st.fs _ p e hp
    · rw [heq]; exact hp
    · rw [heq] at hm; simp at hm
    · rename_i hmv
      rw [heq]
      simp only [moveFile_fail st.fs _ _ hmv]
      exact hp
    · have hmdpres : ∀ (q : Path) (e2 : FEntry), st.fs q = some e2 →
          (if existsP st.fs (nodeTarget RP st.stack n).dropLast then (st.fs, true)
           else mkdirs st.fs (nodeTarget RP st.stack n).dropLast).1 q = some e2 := by
        intro q e2 hq
        by_cases hex : existsP st.fs (nodeTarget RP st.stack n).dropLast
        · rw [if_pos hex]; exact hq
        · rw [if_neg hex]; exact mkdirs_pres st.fs _ q e2 hq
      have hne : p ≠ nodeTarget RP st.stack n := by
        intro hcon
        rw [hcon] at hp
        simp [existsP, hp] at he'
      rcases h with ⟨_, _, heq⟩ | ⟨_, _, heq⟩ | ⟨_, heq⟩
      · rw [heq]
        exact (writeFileAt_frame _ _ _ p hne).trans (hmdpres p e hp)
      · rw [heq]
        exact (writeFileAt_frame _ _ _ p hne).trans (hmdpres p e hp)
      · rw [heq]
        exact hmdpres p e hp

theorem buildGo_pres_nomove (RN : String) (RP : Path) :
    ∀ (ns : List Node) (st : BState) (first : Bool),
    (buildGo RN RP st first ns).stats.moved = st.stats.moved →
    ∀ (p : Path) (e : FEntry), st.fs p = some e →
      (buildGo RN RP st first ns).fs p = some e := by
  intro ns
  induction ns with
  | nil => intro st first _ p e hp; exact hp
  | cons n ns ih =>
    intro st first hm p e hp
    rw [buildGo] at hm ⊢
    have h1 : st.stats.moved ≤ (processNode RN RP first st n).stats.moved :=
      processNode_moved_ge RN RP first st n
    have h2 : (processNode RN RP first st n).stats.moved ≤
        (buildGo RN RP (processNode RN RP first st n) false ns).stats.moved :=
      buildGo_moved_ge RN RP ns _ false
    have hstep : (processNode RN RP first st n).stats.moved = st.stats.moved := by omega
    exact ih _ false (by omega) p e (processNode_pres_nomove RN RP first st n hstep p e hp)

/-- One iteration never destroys file content: every file present before is
present afterwards, possibly relocated by an adoption move. -/
theorem processNode_content (RN : String) (RP : Path) (first : Bool)
    (st : BState) (n : Node) :
    ∀ (p : Path) (c : String), st.fs p = some (.file c) →
      ∃ q, (processNode RN RP first st n).fs q = some (.file c) := by
  intro p c hp
  have h := processNode_classify RN RP first st n
  simp only at h
  rcases h with ⟨_, heq⟩ | ⟨_, h⟩
  · exact ⟨p, by rw [heq]; exact hp⟩
  · rcases h with ⟨_, _, heq⟩ | ⟨_, _, _, heq⟩ | ⟨_, _, _, heq⟩ | ⟨_, _, heq⟩ |
      ⟨_, _, _, _, hmv, heq⟩ | ⟨_, _, _, _, _, heq⟩ | ⟨_, he', _, h⟩
    · exact ⟨p, by rw [heq]; exact hp⟩
    · exact ⟨p, by rw [heq]; exact mkdirs_pres st.fs _ p _ hp⟩
    · exact ⟨p, by rw [heq]; exact mkdirs_pres st.fs _ p _ hp⟩
    · exact ⟨p, by rw [heq]; exact hp⟩
    · -- successful adoption move
      obtain ⟨c0, hsrc, hdst, hfs⟩ := moveFile_spec st.fs _ _ hmv
      by_cases hps : p = joinPath RP n.name
      · refine ⟨nodeTarget RP st.stack n, ?_⟩
        rw [heq]
        have h1 : st.fs (joinPath RP n.name) = some (.file c) := hps ▸ hp
        have hcc : c0 = c := by
          have h2 := hsrc.symm.trans h1
          injection Option.some.inj h2
        subst hcc
        show (moveFile st.fs (joinPath RP n.name) (nodeTarget RP st.stack n)).1
          (nodeTarget RP st.stack n) = some (.file c0)
        rw [hfs]
        simp [FS.upd]
      · refine ⟨p, ?_⟩
        rw [heq]
        have hpd : p ≠ nodeTarget RP st.stack n := by
          intro hcon; rw [hcon, hdst] at hp; exact Option.noConfusion hp
        show (moveFile st.fs (joinPath RP n.name) (nodeTarget RP st.stack n)).1 p =
          some (.file c)
        rw [hfs]
        simp only [FS.upd, if_neg hpd, if_neg hps]
        exact hp
    · rename_i hmv
      refine ⟨p, ?_⟩
      rw [heq]
      simp only [moveFile_fail st.fs _ _ hmv]
      exact hp
    · have hmdpres : ∀ (q : Path) (e2 : FEntry), st.fs q = some e2 →
          (if existsP st.fs (nodeTarget RP st.stack n).dropLast then (st.fs, true)
           else mkdirs st.fs (nodeTarget RP st.stack n).dropLast).1 q = some e2 := by
        intro q e2 hq
        by_cases hex : existsP st.fs (nodeTarget RP st.stack n).dropLast
        · rw [if_pos hex]; exact hq
        · rw [if_neg hex]; exact mkdirs_pres st.fs _ q e2 hq
      have hne : p ≠ nodeTarget RP st.stack n := by
        intro hcon
        rw [hcon] at hp
        simp [existsP, hp] at he'
      rcases h with ⟨_, _, heq⟩ | ⟨_, _, heq⟩ | ⟨_, heq⟩
      · exact ⟨p, by rw [heq]; exact (writeFileAt_frame _ _ _ p hne).trans (hmdpres p _ hp)⟩
      · exact ⟨p, by rw [heq]; exact (writeFileAt_frame _ _ _ p hne).trans (hmdpres p _ hp)⟩
      · exact ⟨p, by rw [heq]; exact hmdpres p _ hp⟩

end DirCtl

namespace DirCtl

theorem buildGo_content (RN : String) (RP : Path) :
    ∀ (ns : List Node) (st : BState) (first : Bool) (p : Path) (c : String),
    st.fs p = some (.file c) →
    ∃ q, (buildGo RN RP st first ns).fs q = some (.file c) := by
  intro ns
  induction ns with
  | nil => intro st first p c hp; exact ⟨p, hp⟩
  | cons n ns ih =>
    intro st first p c hp
    rw [buildGo]
    obtain ⟨q, hq⟩ := processNode_content RN RP first st n p c hp
    exact ih _ false q c hq

/-- The rename search: starting at `counter`, if the next `k` candidates all
exist and candidate `counter + k` does not, the loop returns exactly
candidate `counter + k` (any fuel above `k` suffices). -/
theorem rcLoop_run (fs : FS) (dirp : Path) (base ext : String) :
    ∀ (k counter fuel : Nat),
    (∀ j, counter ≤ j → j < counter + k → existsP fs (rcCand dirp base ext j) = true) →
    existsP fs (rcCand dirp base ext (counter + k)) = false →
    k < fuel →
    rcLoop fs dirp base ext counter fuel = (rcCand dirp base ext (counter + k), true) := by
  intro k
  induction k with
  | zero =>
    intro counter fuel _ habs hfuel
    cases fuel with
    | zero => omega
    | succ f =>
      rw [rcLoop]
      rw [show counter + 0 = counter from rfl] at habs
      rw [habs]
      simp
  | succ k ih =>
    intro counter fuel hexi habs hfuel
    cases fuel with
    | zero => omega
    | succ f =>
      rw [rcLoop]
      have h0 : existsP fs (rcCand dirp base ext counter) = true := by
        refine hexi counter (le_refl _) ?_
        omega
      rw [h0]
      simp only [if_true]
      have hres := ih (counter + 1) f
        (fun j hj1 hj2 => hexi j (by omega) (by omega))
        (by rw [show counter + 1 + k = counter + (k + 1) from by omega]; exact habs)
        (by omega)
      rw [hres]
      rw [show counter + 1 + k = counter + (k + 1) from by omega]

end DirCtl

namespace DirCtl

/-- A first-node condition failing, or any later node, never logs a
root-wrap skip. -/
theorem processNode_wrapCount_nowrap (RN : String) (RP : Path) (first : Bool)
    (st : BState) (n : Node) (hw : ¬ wrapCond RN first n) :
    wrapCount (processNode RN RP first st n).trace = wrapCount st.trace := by
  have h := processNode_classify RN RP first st n
  simp only at h
  rcases h with ⟨hcon, _⟩ | ⟨_, h⟩
  · exact absurd hcon hw
  · rcases h with ⟨_, _, heq⟩ | ⟨_, _, _, heq⟩ | ⟨_, _, _, heq⟩ | ⟨_, _, heq⟩ |
      ⟨_, _, _, _, _, heq⟩ | ⟨_, _, _, _, _, heq⟩ | ⟨_, _, _, h⟩
    · rw [heq]
    · rw [heq]; simp [wrapCount, List.countP_append, List.countP_cons]
    · rw [heq]; simp [wrapCount, List.countP_append, List.countP_cons]
    · rw [heq]; simp [wrapCount, List.countP_append, List.countP_cons]
    · rw [heq]; simp [wrapCount, List.countP_append, List.countP_cons]
    · rw [heq]; simp [wrapCount, List.countP_append, List.countP_cons]
    · rcases h with ⟨_, _, heq⟩ | ⟨_, _, heq⟩ | ⟨_, heq⟩ <;>
        · rw [heq]; simp [wrapCount, List.countP_append, List.countP_cons]

/-- C2 (confirmed).  Concrete part: on indents `[0,2,2,4,2,0]` with types
directory/file/directory/file/file/directory and no root wrap, the run
creates `r/a`, scaffolds `r/a/b`, creates `r/a/c`, scaffolds `r/a/c/d`
(child of the second indent-2 directory) and `r/a/e`, and creates `r/f`
directly under the working root (a sibling of `r/a`, not a descendant).
General part: on a stack whose indents strictly decrease from top (head) to
bottom — the invariant the builder maintains — popping removes exactly the
entries with indent `≥` the current node's indent; the parent is then the
new top of stack, or the working root when the stack is empty (definition
`parentOf`). -/
theorem c2_depth_reconstruction :
    ((build_tree_from_nodes "proj" ["r"] rootOnlyFS c2Nodes).trace =
      [.mkdirA ["r", "a"], .newA ["r", "a", "b"], .mkdirA ["r", "a", "c"],
       .newA ["r", "a", "c", "d"], .newA ["r", "a", "e"], .mkdirA ["r", "f"]] ∧
     (build_tree_from_nodes "proj" ["r"] rootOnlyFS c2Nodes).fs ["r", "a", "c", "d"] =
       some (.file "# Placeholder for d") ∧
     (build_tree_from_nodes "proj" ["r"] rootOnlyFS c2Nodes).fs ["r", "f"] =
       some .dir ∧
     (build_tree_from_nodes "proj" ["r"] rootOnlyFS c2Nodes).fs ["r", "a", "f"] =
       none) ∧
    (∀ (st : List (Nat × Path)) (i : Nat), st.Pairwise (fun a b => b.1 < a.1) →
      popStack st i = st.filter (fun e => decide (e.1 < i))) :=
  ⟨by decide, processNode_pop_sound⟩

/-- Witness for C2: the general popping clause at a concrete stack. -/
theorem c2_witness :
    popStack [(4, ["r", "x"]), (2, ["r"])] 3 = [(2, ["r"])] := by
  rw [c2_depth_reconstruction.2 [(4, ["r", "x"]), (2, ["r"])] 3 (by decide)]
  decide

/-- C10 (confirmed): no materialization run ever logs a renamed move — the
adoption branch runs `resolve_collision` only on a target that was just
checked not to exist, so the collision loop is never entered and the `REN`
sub-branch is unreachable; scaffolding does not call `resolve_collision` at
all (definition `processNode`), so no run ever creates a suffixed
`base_N.ext` name. -/
theorem c10_ren_unreachable (RN : String) (RP : Path) (fs0 : FS)
    (nodes : List Node) :
    renCount (build_tree_from_nodes RN RP fs0 nodes).trace = 0 := by
  rw [build_tree_from_nodes, buildGo_renCount]
  rfl

/-- C5 (confirmed).  Part 1: a first node that is a directory whose name
matches the root basename case-insensitively is pushed mapped to the working
root, with no filesystem change and no counter change (only the skip line is
logged).  Part 2: a following node with greater indent then resolves its
parent to the working root itself.  Part 3: a whole run logs the root-wrap
skip exactly once when the first node satisfies the condition and never
otherwise — in particular a non-directory first node, a first node with a
different name, and all later nodes are never treated as root wraps. -/
theorem c5_root_wrap :
    (∀ (RN : String) (RP : Path) (st : BState) (n : Node),
      n.isDir = true → strLower n.name = strLower RN →
      processNode RN RP true st n =
        { st with stack := (n.indent, RP) :: st.stack,
                  trace := st.trace ++ [.wrapA n.name] }) ∧
    (∀ (RP : Path) (n m : Node), n.indent < m.indent →
      nodeTarget RP [(n.indent, RP)] m = joinPath RP m.name) ∧
    (∀ (RN : String) (RP : Path) (fs0 : FS) (nodes : List Node),
      wrapCount (build_tree_from_nodes RN RP fs0 nodes).trace =
        match nodes with
        | [] => 0
        | n :: _ => if n.isDir = true ∧ strLower n.name = strLower RN then 1 else 0) := by
  refine ⟨?_, ?_, ?_⟩
  · intro RN RP st n hd hn
    exact processNode_wrap RN RP true st n ⟨rfl, hd, hn⟩
  · intro RP n m h
    have h2 : ¬ n.indent ≥ m.indent := by omega
    simp [nodeTarget, popStack, parentOf, List.dropWhile_cons, h2]
  · intro RN RP fs0 nodes
    cases nodes with
    | nil => rfl
    | cons n ns =>
      rw [build_tree_from_nodes, buildGo, buildGo_wrapCount_notfirst]
      by_cases hc : n.isDir = true ∧ strLower n.name = strLower RN
      · rw [processNode_wrap _ _ _ _ _ ⟨rfl, hc.1, hc.2⟩]
        simp [wrapCount, List.countP_append, List.countP_cons, hc]
      · have hnw : ¬ wrapCond RN true n := by
          intro hcon; exact hc ⟨hcon.2.1, hcon.2.2⟩
        rw [processNode_wrapCount_nowrap _ _ _ _ _ hnw]
        simp [wrapCount, if_neg hc]

/-- Witness for C5: a concrete root wrap (case-insensitive) and a concrete
child target resolving to the working root. -/
theorem c5_witness :
    (processNode "proj" ["r"] true ⟨rootOnlyFS, [], ⟨0, 0, 0, 0⟩, []⟩
        ⟨"Proj", 0, true⟩ =
      { fs := rootOnlyFS, stack := [(0, ["r"])], stats := ⟨0, 0, 0, 0⟩,
        trace := [.wrapA "Proj"] }) ∧
    nodeTarget ["r"] [(0, ["r"])] ⟨"x", 2, false⟩ = ["r", "x"] := by
  constructor
  · exact c5_root_wrap.1 "proj" ["r"] _ ⟨"Proj", 0, true⟩ rfl (by decide)
  · have h := c5_root_wrap.2.1 ["r"] ⟨"Proj", 0, true⟩ ⟨"x", 2, false⟩ (by decide)
    rw [h]
    decide

/-- C3 counterexample: with `report.txt` already present in the destination
(the `N = 1` instance of the claim's scenario), materializing another file
node named `report.txt` produces no `report_1.txt` at all — the node is
counted as skipped, nothing is adopted or scaffolded. -/
theorem c3_counterexample :
    repFS ["r", "report.txt"] = some (.file "x") ∧
    (build_tree_from_nodes "proj" ["r"] repFS repNodes).stats.skipped = 1 ∧
    (build_tree_from_nodes "proj" ["r"] repFS repNodes).stats.moved = 0 ∧
    (build_tree_from_nodes "proj" ["r"] repFS repNodes).stats.files = 0 ∧
    (build_tree_from_nodes "proj" ["r"] repFS repNodes).fs ["r", "report_1.txt"] =
      none := by
  decide

/-- C3 as amended (the determinism holds of `resolve_collision` itself):
for every `N ≥ 1`, if `report.txt` exists, the candidates `report_i.txt`
exist for `1 ≤ i < N` and `report_N.txt` does not, then `resolve_collision`
on `report.txt` returns exactly `report_N.txt` with `renamed = True` (for
any fuel bound of at least `N`). -/
theorem c3_amended (N : Nat) (fs : FS) (dirp : Path) (fuel : Nat)
    (hN : 1 ≤ N) (hfuel : N ≤ fuel)
    (h0 : existsP fs (dirp ++ ["report.txt"]) = true)
    (hex : ∀ i, 1 ≤ i → i < N → existsP fs (rcCand dirp "report" ".txt" i) = true)
    (habs : existsP fs (rcCand dirp "report" ".txt" N) = false) :
    resolve_collision fs (dirp ++ ["report.txt"]) fuel =
      (rcCand dirp "report" ".txt" N, true) := by
  rw [resolve_collision, if_pos h0]
  have hlast : (dirp ++ ["report.txt"]).getLast?.getD "" = "report.txt" := by
    rw [List.getLast?_concat]
    rfl
  have hdrop : (dirp ++ ["report.txt"]).dropLast = dirp := by
    rw [List.dropLast_concat]
  have hse : splitext "report.txt" = ("report", ".txt") := by decide
  simp only [hlast, hdrop, hse]
  have hrun := rcLoop_run fs dirp "report" ".txt" (N - 1) 1 fuel
    (fun j hj1 hj2 => hex j hj1 (by omega))
    (by rw [show 1 + (N - 1) = N from by omega]; exact habs)
    (by omega)
  rw [show 1 + (N - 1) = N from by omega] at hrun
  exact hrun

/-- Witness for C3's amended claim: the `N = 3` instance. -/
theorem c3_amended_witness :
    resolve_collision repNFS ["r", "report.txt"] 3 =
      (["r", "report_3.txt"], true) := by
  have h := c3_amended 3 repNFS ["r"] 3 (by omega) (le_refl 3) (by decide)
    (by intro i h1 h2; interval_cases i <;> decide) (by decide)
  exact h.trans (by decide)

/-- C1 counterexample: the target of the first (skipped) file node
pre-exists as a file, yet after the run the content at that path is gone —
a later node adopted the same loose file, moving it away.  So the path-level
post-condition "content at a pre-existing target is unchanged after the
run" fails (the content survives elsewhere: see `c1_no_overwrite_amended`). -/
theorem c1_counterexample :
    preFS ["r", "a.txt"] = some (.file "data") ∧
    (build_tree_from_nodes "proj" ["r"] preFS moveNodes).stats.skipped = 1 ∧
    (build_tree_from_nodes "proj" ["r"] preFS moveNodes).fs ["r", "a.txt"] =
      none := by
  decide

/-- C1 as amended.  Part 1 (per-node skip): a file node whose target exists
changes nothing — the filesystem is untouched, the node is only counted as
skipped.  Part 2 (no content destruction): every file content present
before a run is present after it, possibly at a new path when the adoption
move relocated the file; no operation overwrites file content in place. -/
theorem c1_no_overwrite_amended :
    (∀ (RN : String) (RP : Path) (first : Bool) (st : BState) (n : Node),
      n.isDir = false →
      existsP st.fs (nodeTarget RP st.stack n) = true →
      processNode RN RP first st n =
        { st with stack := popStack st.stack n.indent,
                  stats := { st.stats with skipped := st.stats.skipped + 1 },
                  trace := st.trace ++ [.skipA (nodeTarget RP st.stack n)] }) ∧
    (∀ (RN : String) (RP : Path) (fs0 : FS) (nodes : List Node) (p : Path) (c : String),
      fs0 p = some (.file c) →
      ∃ q, (build_tree_from_nodes RN RP fs0 nodes).fs q = some (.file c)) := by
  constructor
  · intro RN RP first st n hd he
    have hw : ¬ wrapCond RN first n := by
      intro hcon
      obtain ⟨h1, h2, h3⟩ := hcon
      rw [hd] at h2
      exact Bool.noConfusion h2
    exact processNode_skip RN RP first st n hw hd he
  · intro RN RP fs0 nodes p c hp
    exact buildGo_content RN RP nodes _ true p c hp

/-- Witness for C1's amended claim: the skip equation at a concrete state,
and the surviving content of the adopted file of the counterexample run. -/
theorem c1_witness :
    (processNode "proj" ["r"] false ⟨preFS, [], ⟨0, 0, 0, 0⟩, []⟩
        ⟨"a.txt", 0, false⟩ =
      { fs := preFS, stack := [], stats := ⟨0, 0, 0, 1⟩,
        trace := [.skipA ["r", "a.txt"]] }) ∧
    ∃ q, (build_tree_from_nodes "proj" ["r"] preFS moveNodes).fs q =
      some (.file "data") := by
  constructor
  · exact c1_no_overwrite_amended.1 "proj" ["r"] false _ ⟨"a.txt", 0, false⟩ rfl
      (by decide)
  · exact c1_no_overwrite_amended.2 "proj" ["r"] preFS moveNodes ["r", "a.txt"]
      "data" (by decide)

end DirCtl

namespace DirCtl

/-- C4 counterexample: over `preFS`, the run on `moveNodes` finishes with no
per-node error (the loose `a.txt` is adopted into `r/sub/`), yet the second
run over the resulting filesystem scaffolds one file (the vacated
`r/a.txt`) instead of performing zero scaffolds with every file node
skipped. -/
theorem c4_counterexample :
    errCount (build_tree_from_nodes "proj" ["r"] preFS moveNodes).trace = 0 ∧
    (build_tree_from_nodes "proj" ["r"]
        (build_tree_from_nodes "proj" ["r"] preFS moveNodes).fs
        moveNodes).stats.files = 1 ∧
    (build_tree_from_nodes "proj" ["r"]
        (build_tree_from_nodes "proj" ["r"] preFS moveNodes).fs
        moveNodes).stats.skipped = 1 := by
  decide

theorem errCount_append_single (t : List Action) (a : Action)
    (h : (match a with | .errA _ => true | _ => false) = false) :
    errCount (t ++ [a]) = errCount t := by
  simp [errCount, List.countP_append, List.countP_cons, h]

theorem BState_mk_fs (fs : FS) (stack : List (Nat × Path)) (stats : Stats)
    (trace : List Action) : (BState.mk fs stack stats trace).fs = fs := rfl

theorem BState_mk_stack (fs : FS) (stack : List (Nat × Path)) (stats : Stats)
    (trace : List Action) : (BState.mk fs stack stats trace).stack = stack := rfl

theorem BState_mk_stats (fs : FS) (stack : List (Nat × Path)) (stats : Stats)
    (trace : List Action) : (BState.mk fs stack stats trace).stats = stats := rfl

theorem BState_mk_trace (fs : FS) (stack : List (Nat × Path)) (stats : Stats)
    (trace : List Action) : (BState.mk fs stack stats trace).trace = trace := rfl

theorem Stats_mk_dirs (a b c d : Nat) : (Stats.mk a b c d).dirs = a := rfl

theorem Stats_mk_files (a b c d : Nat) : (Stats.mk a b c d).files = b := rfl

theorem Stats_mk_moved (a b c d : Nat) : (Stats.mk a b c d).moved = c := rfl

theorem Stats_mk_skipped (a b c d : Nat) : (Stats.mk a b c d).skipped = d := rfl

/-- Lockstep lemma behind the amended idempotence claim: if the remaining
run from a state performs no error and no move, then re-running the same
nodes with the same stack over any filesystem containing the first run's
final entries changes nothing: no creation, no scaffold, no move, no error,
and one skip per file node. -/
theorem c4core (RN : String) (RP : Path) :
    ∀ (ns : List Node) (first : Bool) (stack : List (Nat × Path)) (fs1 : FS)
      (s1 : Stats) (t1 : List Action) (fs2 : FS) (s2 : Stats) (t2 : List Action),
    errCount (buildGo RN RP ⟨fs1, stack, s1, t1⟩ first ns).trace = errCount t1 →
    (buildGo RN RP ⟨fs1, stack, s1, t1⟩ first ns).stats.moved = s1.moved →
    (∀ p e, (buildGo RN RP ⟨fs1, stack, s1, t1⟩ first ns).fs p = some e →
      fs2 p = some e) →
    (buildGo RN RP ⟨fs2, stack, s2, t2⟩ first ns).fs = fs2 ∧
    (buildGo RN RP ⟨fs2, stack, s2, t2⟩ first ns).stats.dirs = s2.dirs ∧
    (buildGo RN RP ⟨fs2, stack, s2, t2⟩ first ns).stats.files = s2.files ∧
    (buildGo RN RP ⟨fs2, stack, s2, t2⟩ first ns).stats.moved = s2.moved ∧
    errCount (buildGo RN RP ⟨fs2, stack, s2, t2⟩ first ns).trace = errCount t2 ∧
    (buildGo RN RP ⟨fs2, stack, s2, t2⟩ first ns).stats.skipped =
      s2.skipped + ns.countP (fun n => !n.isDir) := by
  intro ns
  induction ns with
  | nil =>
    intro first stack fs1 s1 t1 fs2 s2 t2 _ _ _
    exact ⟨rfl, rfl, rfl, rfl, rfl, by simp [buildGo]⟩
  | cons n ns ih =>
    intro first stack fs1 s1 t1 fs2 s2 t2 herr hmov hsup
    simp only [buildGo] at herr hmov hsup ⊢
    have hcl := processNode_classify RN RP first ⟨fs1, stack, s1, t1⟩ n
    simp only at hcl
    rcases hcl with ⟨hw, heq⟩ | ⟨hw, hcl⟩
    · -- root wrap in run 1; run 2 wraps identically
      rw [heq] at herr hmov
      simp only [heq] at hsup
      rw [processNode_wrap RN RP first ⟨fs2, stack, s2, t2⟩ n hw]
      have hres := ih false ((n.indent, RP) :: stack) fs1 s1
        (t1 ++ [Action.wrapA n.name]) fs2 s2 (t2 ++ [Action.wrapA n.name])
        (by rw [errCount_append_single t1 (Action.wrapA n.name) rfl]; exact herr)
        (by exact hmov) (by exact hsup)
      have hcnt : (n :: ns).countP (fun n => !n.isDir) =
          ns.countP (fun n => !n.isDir) := by
        simp [List.countP_cons, hw.2.1]
      refine ⟨hres.1, hres.2.1, hres.2.2.1, hres.2.2.2.1, ?_, ?_⟩
      · have h4 := hres.2.2.2.2.1
        rw [errCount_append_single t2 (Action.wrapA n.name) rfl] at h4
        exact h4
      · rw [hcnt]
        exact hres.2.2.2.2.2
    · rcases hcl with ⟨hd, he, heq⟩ | ⟨hd, he, hmk, heq⟩ | ⟨hd, he, hmk, heq⟩ |
        ⟨hd, he, heq⟩ | ⟨hd, he, hl1, hl2, hmv, heq⟩ | ⟨hd, he, hl1, hl2, hmv, heq⟩ |
        ⟨hd, he, hl, hsc⟩
      · -- run 1: directory target already exists
        rw [heq] at herr hmov
        simp only [heq] at hsup
        obtain ⟨e0, he0⟩ : ∃ e0, fs1 (nodeTarget RP stack n) = some e0 := by
          unfold existsP at he
          cases hx : fs1 (nodeTarget RP stack n) with
          | none => rw [hx] at he; simp at he
          | some e0 => exact ⟨e0, rfl⟩
        have hfin := buildGo_pres_nomove RN RP ns
          ⟨fs1, (n.indent, nodeTarget RP stack n) :: popStack stack n.indent, s1, t1⟩
          false (by exact hmov) _ _ he0
        have hfs2t := hsup _ _ (by exact hfin)
        have he2 : existsP fs2 (nodeTarget RP stack n) = true := by
          simp [existsP, hfs2t]
        rw [processNode_dir_exists RN RP first ⟨fs2, stack, s2, t2⟩ n hw hd he2]
        have hres := ih false
          ((n.indent, nodeTarget RP stack n) :: popStack stack n.indent)
          fs1 s1 t1 fs2 s2 t2 (by exact herr) (by exact hmov) (by exact hsup)
        have hcnt : (n :: ns).countP (fun n => !n.isDir) =
            ns.countP (fun n => !n.isDir) := by
          simp [List.countP_cons, hd]
        rw [hcnt]
        exact hres
      · -- run 1: directory created; run 2 finds it existing
        rw [heq] at herr hmov
        simp only [heq] at hsup
        have htgt : (mkdirs fs1 (nodeTarget RP stack n)).1 (nodeTarget RP stack n) =
            some .dir := mkdirs_ok_target fs1 _ hmk
        have hfin := buildGo_pres_nomove RN RP ns
          ⟨(mkdirs fs1 (nodeTarget RP stack n)).1,
            (n.indent, nodeTarget RP stack n) :: popStack stack n.indent,
            ⟨s1.dirs + 1, s1.files, s1.moved, s1.skipped⟩,
            t1 ++ [Action.mkdirA (nodeTarget RP stack n)]⟩
          false (by exact hmov) _ _ htgt
        have hfs2t := hsup _ _ (by exact hfin)
        have he2 : existsP fs2 (nodeTarget RP stack n) = true := by
          simp [existsP, hfs2t]
        rw [processNode_dir_exists RN RP first ⟨fs2, stack, s2, t2⟩ n hw hd he2]
        have hres := ih false
          ((n.indent, nodeTarget RP stack n) :: popStack stack n.indent)
          (mkdirs fs1 (nodeTarget RP stack n)).1
          ⟨s1.dirs + 1, s1.files, s1.moved, s1.skipped⟩
          (t1 ++ [Action.mkdirA (nodeTarget RP stack n)]) fs2 s2 t2
          (by rw [errCount_append_single t1 (Action.mkdirA (nodeTarget RP stack n)) rfl]
              exact herr)
          (by exact hmov) (by exact hsup)
        have hcnt : (n :: ns).countP (fun n => !n.isDir) =
            ns.countP (fun n => !n.isDir) := by
          simp [List.countP_cons, hd]
        rw [hcnt]
        exact hres
      · -- run 1: directory creation failed — excluded by the no-error hypothesis
        exfalso
        rw [heq] at herr
        have hup : errCount (t1 ++ [Action.errA (nodeTarget RP stack n)]) =
            errCount t1 + 1 := by
          simp [errCount, List.countP_append, List.countP_cons]
        have hge := buildGo_errCount_ge RN RP ns
          (BState.mk (mkdirs fs1 (nodeTarget RP stack n)).1
            ((n.indent, nodeTarget RP stack n) :: popStack stack n.indent)
            s1 (t1 ++ [Action.errA (nodeTarget RP stack n)])) false
        rw [BState_mk_trace] at hge
        rw [hup] at hge
        rw [herr] at hge
        omega
      · -- run 1: file target exists, skipped; run 2 skips identically
        rw [heq] at herr hmov
        simp only [heq] at hsup
        obtain ⟨e0, he0⟩ : ∃ e0, fs1 (nodeTarget RP stack n) = some e0 := by
          unfold existsP at he
          cases hx : fs1 (nodeTarget RP stack n) with
          | none => rw [hx] at he; simp at he
          | some e0 => exact ⟨e0, rfl⟩
        have hfin := buildGo_pres_nomove RN RP ns
          ⟨fs1, popStack stack n.indent,
            ⟨s1.dirs, s1.files, s1.moved, s1.skipped + 1⟩,
            t1 ++ [Action.skipA (nodeTarget RP stack n)]⟩
          false (by exact hmov) _ _ he0
        have hfs2t := hsup _ _ (by exact hfin)
        have he2 : existsP fs2 (nodeTarget RP stack n) = true := by
          simp [existsP, hfs2t]
        rw [processNode_skip RN RP first ⟨fs2, stack, s2, t2⟩ n hw hd he2]
        have hres := ih false (popStack stack n.indent) fs1
          ⟨s1.dirs, s1.files, s1.moved, s1.skipped + 1⟩
          (t1 ++ [Action.skipA (nodeTarget RP stack n)]) fs2
          ⟨s2.dirs, s2.files, s2.moved, s2.skipped + 1⟩
          (t2 ++ [Action.skipA (nodeTarget RP stack n)])
          (by rw [errCount_append_single t1 (Action.skipA (nodeTarget RP stack n)) rfl]
              exact herr)
          (by exact hmov) (by exact hsup)
        have hcnt : (n :: ns).countP (fun n => !n.isDir) =
            ns.countP (fun n => !n.isDir) + 1 := by
          simp [List.countP_cons, hd]
        refine ⟨hres.1, by exact hres.2.1, by exact hres.2.2.1, by exact hres.2.2.2.1,
          ?_, ?_⟩
        · have h4 := hres.2.2.2.2.1
          rw [errCount_append_single t2 (Action.skipA (nodeTarget RP stack n)) rfl] at h4
          exact h4
        · rw [hcnt]
          have h5 : (buildGo RN RP
              (BState.mk fs2 (popStack stack n.indent)
                (Stats.mk s2.dirs s2.files s2.moved (s2.skipped + 1))
                (t2 ++ [Action.skipA (nodeTarget RP stack n)])) false ns).stats.skipped =
              s2.skipped + 1 + ns.countP (fun n => !n.isDir) := by
            have h6 := hres.2.2.2.2.2
            try simp only [Stats_mk_skipped] at h6
            exact h6
          rw [h5]
          omega
      · -- run 1: successful adoption move — excluded by the no-move hypothesis
        exfalso
        rw [heq] at hmov
        have hge := buildGo_moved_ge RN RP ns
          (BState.mk (moveFile fs1 (joinPath RP n.name) (nodeTarget RP stack n)).1
            (popStack stack n.indent)
            (Stats.mk s1.dirs s1.files (s1.moved + 1) s1.skipped)
            (t1 ++ [Action.moveA (joinPath RP n.name) (nodeTarget RP stack n) false])) false
        rw [BState_mk_stats, Stats_mk_moved] at hge
        rw [hmov] at hge
        omega
      · -- run 1: failed adoption move — excluded by the no-error hypothesis
        exfalso
        rw [heq] at herr
        have hup : errCount (t1 ++ [Action.errA (nodeTarget RP stack n)]) =
            errCount t1 + 1 := by
          simp [errCount, List.countP_append, List.countP_cons]
        have hge := buildGo_errCount_ge RN RP ns
          (BState.mk (moveFile fs1 (joinPath RP n.name) (nodeTarget RP stack n)).1
            (popStack stack n.indent) s1
            (t1 ++ [Action.errA (nodeTarget RP stack n)])) false
        rw [BState_mk_trace] at hge
        rw [hup] at hge
        rw [herr] at hge
        omega
      · -- run 1: scaffold branch
        rcases hsc with ⟨hmd, hwr, heq⟩ | ⟨hmd, hwr, heq⟩ | ⟨hmd, heq⟩
        · -- successful scaffold; run 2 finds the placeholder existing
          rw [heq] at herr hmov
          simp only [heq] at hsup
          have htgt := writeFileAt_ok _ (nodeTarget RP stack n)
            ("# Placeholder for " ++ n.name) hwr
          have hfin := buildGo_pres_nomove RN RP ns
            ⟨(writeFileAt (if existsP fs1 (nodeTarget RP stack n).dropLast then (fs1, true)
                else mkdirs fs1 (nodeTarget RP stack n).dropLast).1
                (nodeTarget RP stack n) ("# Placeholder for " ++ n.name)).1,
              popStack stack n.indent,
              ⟨s1.dirs, s1.files + 1, s1.moved, s1.skipped⟩,
              t1 ++ [Action.newA (nodeTarget RP stack n)]⟩
            false (by exact hmov) _ _ (by exact htgt)
          have hfs2t := hsup _ _ (by exact hfin)
          have he2 : existsP fs2 (nodeTarget RP stack n) = true := by
            simp [existsP, hfs2t]
          rw [processNode_skip RN RP first ⟨fs2, stack, s2, t2⟩ n hw hd he2]
          have hres := ih false (popStack stack n.indent)
            (writeFileAt (if existsP fs1 (nodeTarget RP stack n).dropLast then (fs1, true)
              else mkdirs fs1 (nodeTarget RP stack n).dropLast).1
              (nodeTarget RP stack n) ("# Placeholder for " ++ n.name)).1
            ⟨s1.dirs, s1.files + 1, s1.moved, s1.skipped⟩
            (t1 ++ [Action.newA (nodeTarget RP stack n)]) fs2
            ⟨s2.dirs, s2.files, s2.moved, s2.skipped + 1⟩
            (t2 ++ [Action.skipA (nodeTarget RP stack n)])
            (by rw [errCount_append_single t1 (Action.newA (nodeTarget RP stack n)) rfl]
                exact herr)
            (by exact hmov) (by exact hsup)
          have hcnt : (n :: ns).countP (fun n => !n.isDir) =
              ns.countP (fun n => !n.isDir) + 1 := by
            simp [List.countP_cons, hd]
          refine ⟨hres.1, by exact hres.2.1, by exact hres.2.2.1, by exact hres.2.2.2.1,
            ?_, ?_⟩
          · have h4 := hres.2.2.2.2.1
            rw [errCount_append_single t2 (Action.skipA (nodeTarget RP stack n)) rfl] at h4
            exact h4
          · rw [hcnt]
            have h5 : (buildGo RN RP
                (BState.mk fs2 (popStack stack n.indent)
                  (Stats.mk s2.dirs s2.files s2.moved (s2.skipped + 1))
                  (t2 ++ [Action.skipA (nodeTarget RP stack n)])) false ns).stats.skipped =
                s2.skipped + 1 + ns.countP (fun n => !n.isDir) := by
              have h6 := hres.2.2.2.2.2
              try simp only [Stats_mk_skipped] at h6
              exact h6
            rw [h5]
            omega
        · -- failed scaffold write — excluded
          exfalso
          rw [heq] at herr
          have hup : errCount (t1 ++ [Action.errA (nodeTarget RP stack n)]) =
              errCount t1 + 1 := by
            simp [errCount, List.countP_append, List.countP_cons]
          have hge := buildGo_errCount_ge RN RP ns
            (BState.mk
              (writeFileAt (if existsP fs1 (nodeTarget RP stack n).dropLast then (fs1, true)
                else mkdirs fs1 (nodeTarget RP stack n).dropLast).1
                (nodeTarget RP stack n) ("# Placeholder for " ++ n.name)).1
              (popStack stack n.indent) s1
              (t1 ++ [Action.errA (nodeTarget RP stack n)])) false
          rw [BState_mk_trace] at hge
          rw [hup] at hge
          rw [herr] at hge
          omega
        · -- failed intermediate-directory creation — excluded
          exfalso
          rw [heq] at herr
          have hup : errCount (t1 ++ [Action.errA (nodeTarget RP stack n)]) =
              errCount t1 + 1 := by
            simp [errCount, List.countP_append, List.countP_cons]
          have hge := buildGo_errCount_ge RN RP ns
            (BState.mk
              (if existsP fs1 (nodeTarget RP stack n).dropLast then (fs1, true)
                else mkdirs fs1 (nodeTarget RP stack n).dropLast).1
              (popStack stack n.indent) s1
              (t1 ++ [Action.errA (nodeTarget RP stack n)])) false
          rw [BState_mk_trace] at hge
          rw [hup] at hge
          rw [herr] at hge
          omega

end DirCtl

namespace DirCtl

/-- C4 as amended: idempotence holds when the first run performs no per-node
error and additionally no adoption move (the counterexample
`c4_counterexample` shows a move can vacate a path that the second run then
re-creates).  Under these hypotheses the second run over the resulting
filesystem changes nothing: the filesystem is unchanged, zero directories
created, zero files scaffolded, zero moves, zero errors — every directory
node finds its target already existing — and every file node is counted as
skipped. -/
theorem c4_idempotent_amended (RN : String) (RP : Path) (fs0 : FS)
    (nodes : List Node)
    (herr : errCount (build_tree_from_nodes RN RP fs0 nodes).trace = 0)
    (hmov : (build_tree_from_nodes RN RP fs0 nodes).stats.moved = 0) :
    (build_tree_from_nodes RN RP (build_tree_from_nodes RN RP fs0 nodes).fs
        nodes).fs = (build_tree_from_nodes RN RP fs0 nodes).fs ∧
    (build_tree_from_nodes RN RP (build_tree_from_nodes RN RP fs0 nodes).fs
        nodes).stats.dirs = 0 ∧
    (build_tree_from_nodes RN RP (build_tree_from_nodes RN RP fs0 nodes).fs
        nodes).stats.files = 0 ∧
    (build_tree_from_nodes RN RP (build_tree_from_nodes RN RP fs0 nodes).fs
        nodes).stats.moved = 0 ∧
    errCount (build_tree_from_nodes RN RP
        (build_tree_from_nodes RN RP fs0 nodes).fs nodes).trace = 0 ∧
    (build_tree_from_nodes RN RP (build_tree_from_nodes RN RP fs0 nodes).fs
        nodes).stats.skipped = nodes.countP (fun n => !n.isDir) := by
  simp only [build_tree_from_nodes] at herr hmov ⊢
  have h := c4core RN RP nodes true [] fs0 ⟨0, 0, 0, 0⟩ []
    (buildGo RN RP ⟨fs0, [], ⟨0, 0, 0, 0⟩, []⟩ true nodes).fs ⟨0, 0, 0, 0⟩ []
    (by exact herr) (by exact hmov) (fun p e hp => hp)
  refine ⟨h.1, by exact h.2.1, by exact h.2.2.1, by exact h.2.2.2.1,
    by exact h.2.2.2.2.1, ?_⟩
  have h6 := h.2.2.2.2.2
  rw [h6]
  simp

/-- Witness for C4's amended claim: the depth-reconstruction scenario's
first run has no errors and no moves, and its second run is a pure skip
pass. -/
theorem c4_witness :
    (build_tree_from_nodes "proj" ["r"]
        (build_tree_from_nodes "proj" ["r"] rootOnlyFS c2Nodes).fs
        c2Nodes).stats.dirs = 0 ∧
    (build_tree_from_nodes "proj" ["r"]
        (build_tree_from_nodes "proj" ["r"] rootOnlyFS c2Nodes).fs
        c2Nodes).stats.files = 0 ∧
    (build_tree_from_nodes "proj" ["r"]
        (build_tree_from_nodes "proj" ["r"] rootOnlyFS c2Nodes).fs
        c2Nodes).stats.moved = 0 ∧
    (build_tree_from_nodes "proj" ["r"]
        (build_tree_from_nodes "proj" ["r"] rootOnlyFS c2Nodes).fs
        c2Nodes).stats.skipped = 3 := by
  have h := c4_idempotent_amended "proj" ["r"] rootOnlyFS c2Nodes
    (by decide) (by decide)
  refine ⟨h.2.1, h.2.2.1, h.2.2.2.1, ?_⟩
  rw [h.2.2.2.2.2]
  decide

end DirCtl

namespace DirCtl

/-- C7 (code bug): the line `".<."` contains no parent-traversal sequence,
so `sanitize_name`'s `replace('..', '')` is a no-op; the subsequent removal
of the illegal character `<` then *creates* the sequence, and the resulting
node is named `".."` — `identify_nodes` emits a traversal name, violating
the sanitization contract stated by the spec and by the source's own
`# Security: Remove Traversal and Invalid Chars` comment. -/
theorem c7_code_bug :
    sanitize_name ".<." = ".." ∧
    identify_nodes [".<."] = [⟨"..", 0, false⟩] ∧
    hasDotDot (sanitize_name ".<.").data = true := by
  decide

/-- C8 (code bug): the character class of the source regex
`r'^([\s│├└─|+\-\\t]*)(.*)'` contains a literal `t` (and a literal
backslash), because `\\t` in a raw string is an escaped backslash followed
by `t`, not a tab.  The classifier therefore absorbs the leading `t` of an
entry name such as `tests` into the indentation prefix: it returns name
`"ests"` with indent 1 instead of `"tests"` with indent 0.  (Genuine
tree-glyph prefixes still work — second conjunct — because whitespace is
matched by `\s` and a tab still expands to width 4.) -/
theorem c8_code_bug :
    parse_line_content "tests" = (some "ests", 1) ∧
    parse_line_content "\t├── main.py" = (some "main.py", 8) := by
  decide

/-- C9 (confirmed): `read_text_file` returns `None` exactly when the file
cannot be opened or a null byte occurs in its first 1024 bytes (the binary
check runs before any decoding attempt); otherwise the encodings are tried
in the order `utf-8-sig`, `utf-8`, `latin-1` and the lines of the first
successful decode are returned — `latin-1` never fails, so a readable,
null-free file always yields lines. -/
theorem c9_read_text_file :
    (∀ file?, read_text_file file? = none ↔
      (file? = none ∨ ∃ bs, file? = some bs ∧ (bs.take 1024).contains 0 = true)) ∧
    (∀ bs cs, (bs.take 1024).contains 0 = false → utf8SigDecode bs = some cs →
      read_text_file (some bs) = some (toLines cs)) ∧
    (∀ bs cs, (bs.take 1024).contains 0 = false → utf8SigDecode bs = none →
      utf8Decode bs = some cs → read_text_file (some bs) = some (toLines cs)) ∧
    (∀ bs, (bs.take 1024).contains 0 = false → utf8SigDecode bs = none →
      utf8Decode bs = none → read_text_file (some bs) = some (toLines bs)) := by
  refine ⟨?_, ?_, ?_, ?_⟩
  · intro file?
    cases file? with
    | none => simp [read_text_file]
    | some bs =>
      simp only [read_text_file]
      cases hb : (bs.take 1024).contains 0 with
      | true =>
        rw [if_pos rfl]
        constructor
        · intro _
          exact Or.inr ⟨bs, rfl, hb⟩
        · intro _
          rfl
      | false =>
        simp only [Bool.false_eq_true, if_false]
        have hrhs : ¬ ((some bs : Option (List Nat)) = none ∨
            ∃ bs', some bs = some bs' ∧ (bs'.take 1024).contains 0 = true) := by
          rintro (hcon | ⟨bs', heq, hc⟩)
          · exact Option.noConfusion hcon
          · cases Option.some.inj heq
            rw [hb] at hc
            exact Bool.noConfusion hc
        cases h1 : utf8SigDecode bs with
        | some cs => exact iff_of_false (by simp) hrhs
        | none =>
          cases h2 : utf8Decode bs with
          | some cs => exact iff_of_false (by simp) hrhs
          | none => exact iff_of_false (by simp) hrhs
  · intro bs cs hb h1
    simp only [read_text_file]
    rw [hb]
    simp only [Bool.false_eq_true, if_false]
    rw [h1]
  · intro bs cs hb h1 h2
    simp only [read_text_file]
    rw [hb]
    simp only [Bool.false_eq_true, if_false]
    rw [h1, h2]
  · intro bs hb h1 h2
    simp only [read_text_file]
    rw [hb]
    simp only [Bool.false_eq_true, if_false]
    rw [h1, h2]

/-- Witness for C9: a binary file is rejected; a BOM-led file decodes with
the BOM stripped; an invalid-UTF-8 file falls back to latin-1. -/
theorem c9_witness :
    read_text_file (some [65, 0, 66]) = none ∧
    read_text_file (some [0xEF, 0xBB, 0xBF, 65]) = some [[65]] ∧
    read_text_file (some [0xC3, 65]) = some [[0xC3, 65]] := by
  refine ⟨?_, ?_, ?_⟩
  · exact (c9_read_text_file.1 (some [65, 0, 66])).mpr
      (Or.inr ⟨[65, 0, 66], rfl, by decide⟩)
  · have h := c9_read_text_file.2.1 [0xEF, 0xBB, 0xBF, 65] [65] (by decide) (by decide)
    rw [h]
    decide
  · have h := c9_read_text_file.2.2.2 [0xC3, 65] (by decide) (by decide) (by decide)
    rw [h]
    decide

end DirCtl

namespace DirCtl

theorem countNL_append (a b : String) : countNL (a ++ b) = countNL a + countNL b := by
  simp [countNL, String.data_append, List.countP_append]

theorem lookupS_offLink (l : Path) (fs : SFS) (q : Path) (hq : ¬ strictExt l q) :
    lookupS fs q = lookupS (offLink l fs) q := by
  induction fs with
  | nil => rfl
  | cons e rest ih =>
    by_cases he : e.1 = q
    · have hkeep : (!(decide (l <+: e.1) && decide (l ≠ e.1))) = true := by
        rw [he]
        by_cases hpre : l <+: q
        · have hle : l = q := by
            by_contra hne
            exact hq ⟨hpre, hne⟩
          simp [hle]
        · simp [hpre]
      rw [lookupS, lookupS, offLink, List.filter_cons, hkeep, if_pos rfl]
      simp [List.find?_cons, he]
    · by_cases hkeep : (!(decide (l <+: e.1) && decide (l ≠ e.1))) = true
      · rw [lookupS, lookupS, offLink, List.filter_cons, hkeep, if_pos rfl]
        simp only [List.find?_cons, he, decide_False, Bool.false_eq_true, if_false]
        exact ih
      · have hkeep' : (!(decide (l <+: e.1) && decide (l ≠ e.1))) = false := by
          simpa using hkeep
        rw [lookupS, lookupS, offLink, List.filter_cons, hkeep']
        simp only [Bool.false_eq_true, if_false]
        simp only [List.find?_cons, he, decide_False, Bool.false_eq_true, if_false]
        exact ih

theorem filterMap_eq_of_none (f : α → Option β) (p : α → Bool) :
    ∀ (xs : List α), (∀ x ∈ xs, p x = false → f x = none) →
    xs.filterMap f = (xs.filter p).filterMap f := by
  intro xs
  induction xs with
  | nil => intro _; rfl
  | cons a rest ih =>
    intro h
    rw [List.filter_cons]
    by_cases hp : p a = true
    · rw [if_pos hp, List.filterMap_cons, List.filterMap_cons]
      cases f a with
      | none => exact ih (fun x hx => h x (List.mem_cons_of_mem a hx))
      | some b => rw [ih (fun x hx => h x (List.mem_cons_of_mem a hx))]
    · have hp' : p a = false := by simpa using hp
      rw [hp']
      simp only [Bool.false_eq_true, if_false]
      rw [List.filterMap_cons, h a (List.mem_cons_self a rest) hp']
      exact ih (fun x hx => h x (List.mem_cons_of_mem a hx))

theorem prefix_dropLast_of_strict (l q : Path) (hpre : l <+: q) (hne : l ≠ q) :
    l <+: q.dropLast := by
  have hlt : l.length < q.length :=
    lt_of_le_of_ne hpre.length_le (fun hl => hne (hpre.eq_of_length hl))
  refine List.prefix_of_prefix_length_le hpre (List.dropLast_prefix q) ?_
  rw [List.length_dropLast]
  omega

theorem childNames_offLink (l : Path) (fs : SFS) (p : Path) (hp : ¬ l <+: p) :
    childNames fs p = childNames (offLink l fs) p := by
  unfold childNames offLink
  congr 1
  congr 1
  apply filterMap_eq_of_none
  intro e _ hpe
  have hse : l <+: e.1 ∧ l ≠ e.1 := by
    simpa using hpe
  by_cases hdl : e.1.dropLast = p
  · exfalso
    apply hp
    rw [← hdl]
    exact prefix_dropLast_of_strict l e.1 hse.1 hse.2
  · simp [hdl]

theorem not_strictExt_child (l dirPath : Path) (item : String)
    (h : ¬ l <+: dirPath) : ¬ strictExt l (dirPath ++ [item]) := by
  rintro ⟨hpre, hne⟩
  apply h
  have hdl : (dirPath ++ [item]).dropLast = dirPath := List.dropLast_concat
  rw [← hdl]
  exact prefix_dropLast_of_strict l _ hpre hne

theorem lookupS_mem (fs : SFS) (q : Path) (e : SEntry)
    (h : lookupS fs q = some e) : ∃ ent ∈ fs, ent.1 = q := by
  unfold lookupS at h
  cases hf : fs.find? (fun e => decide (e.1 = q)) with
  | none => rw [hf] at h; exact Option.noConfusion h
  | some ent =>
    have hm := List.mem_of_find?_eq_some hf
    have hp := List.find?_some hf
    exact ⟨ent, hm, by simpa using hp⟩

theorem countP_lt_aux (p q : α → Bool) :
    ∀ (l : List α), (∀ x ∈ l, p x = true → q x = true) →
    ∀ (x : α), x ∈ l → q x = true → p x = false →
    l.countP p < l.countP q := by
  intro l
  induction l with
  | nil => intro _ x hx; cases hx
  | cons a rest ih =>
    intro himp x hx hqx hpx
    rw [List.countP_cons, List.countP_cons]
    rcases List.mem_cons.mp hx with rfl | hmem
    · have h1 : List.countP p rest ≤ List.countP q rest :=
        List.countP_mono_left (fun y hy => himp y (List.mem_cons_of_mem _ hy))
      rw [hpx, hqx]
      simp only [Bool.false_eq_true, if_false, if_true]
      omega
    · have h1 := ih (fun y hy => himp y (List.mem_cons_of_mem _ hy)) x hmem hqx hpx
      by_cases hpa : p a = true
      · rw [hpa, himp a (List.mem_cons_self a rest) hpa]
        omega
      · have hpa' : p a = false := by simpa using hpa
        rw [hpa']
        simp only [Bool.false_eq_true, if_false]
        omega

theorem extCount_child_lt (fs : SFS) (dirPath : Path) (item : String)
    (hent : ∃ ent ∈ fs, ent.1 = dirPath ++ [item]) :
    extCount fs (dirPath ++ [item]) < extCount fs dirPath := by
  obtain ⟨ent, hm, hq⟩ := hent
  unfold extCount
  refine countP_lt_aux _ _ fs ?_ ent hm ?_ ?_
  · intro x hx
    simp only [Bool.and_eq_true, decide_eq_true_eq]
    rintro ⟨h1, h2⟩
    constructor
    · exact ((dirPath.prefix_append [item]).trans h1)
    · intro hcon
      rw [← hcon] at h1
      have := h1.length_le
      simp at this
  · simp only [Bool.and_eq_true, decide_eq_true_eq, hq]
    constructor
    · exact dirPath.prefix_append [item]
    · intro hcon
      have : dirPath.length = (dirPath ++ [item]).length := by rw [← hcon]
      simp at this
  · simp [hq]

theorem gtsItems_cons_link (r : Path → String → SStats → String × SStats)
    (fs : SFS) (dirPath : Path) (pfx it t : String) (rest : List String)
    (stats : SStats) (h : lookupS fs (dirPath ++ [it]) = some (.slink t)) :
    gtsItems r fs dirPath pfx (it :: rest) stats =
      ((pfx ++ (if rest.isEmpty then "└── " else "├── ") ++ it ++ " -> " ++ t ++ "\n") ++
          (gtsItems r fs dirPath pfx rest { stats with files := stats.files + 1 }).1,
        (gtsItems r fs dirPath pfx rest { stats with files := stats.files + 1 }).2) := by
  rw [gtsItems, h]

theorem gtsItems_cons_dir (r : Path → String → SStats → String × SStats)
    (fs : SFS) (dirPath : Path) (pfx it : String) (rest : List String)
    (stats : SStats) (h : lookupS fs (dirPath ++ [it]) = some .sdir) :
    gtsItems r fs dirPath pfx (it :: rest) stats =
      (pfx ++ (if rest.isEmpty then "└── " else "├── ") ++ it ++ "/\n" ++
          (r (dirPath ++ [it]) (pfx ++ (if rest.isEmpty then "    " else "│   "))
            { stats with dirs := stats.dirs + 1 }).1 ++
          (gtsItems r fs dirPath pfx rest
            (r (dirPath ++ [it]) (pfx ++ (if rest.isEmpty then "    " else "│   "))
              { stats with dirs := stats.dirs + 1 }).2).1,
        (gtsItems r fs dirPath pfx rest
          (r (dirPath ++ [it]) (pfx ++ (if rest.isEmpty then "    " else "│   "))
            { stats with dirs := stats.dirs + 1 }).2).2) := by
  rw [gtsItems, h]

theorem gtsItems_cons_file (r : Path → String → SStats → String × SStats)
    (fs : SFS) (dirPath : Path) (pfx it : String) (rest : List String)
    (stats : SStats) (h : lookupS fs (dirPath ++ [it]) = some .sfile) :
    gtsItems r fs dirPath pfx (it :: rest) stats =
      ((pfx ++ (if rest.isEmpty then "└── " else "├── ") ++ it ++ "\n") ++
          (gtsItems r fs dirPath pfx rest { stats with files := stats.files + 1 }).1,
        (gtsItems r fs dirPath pfx rest { stats with files := stats.files + 1 }).2) := by
  rw [gtsItems, h]

theorem gtsItems_cons_none (r : Path → String → SStats → String × SStats)
    (fs : SFS) (dirPath : Path) (pfx it : String) (rest : List String)
    (stats : SStats) (h : lookupS fs (dirPath ++ [it]) = none) :
    gtsItems r fs dirPath pfx (it :: rest) stats =
      ((pfx ++ (if rest.isEmpty then "└── " else "├── ") ++ it ++ "\n") ++
          (gtsItems r fs dirPath pfx rest { stats with files := stats.files + 1 }).1,
        (gtsItems r fs dirPath pfx rest { stats with files := stats.files + 1 }).2) := by
  rw [gtsItems, h]

theorem gtsItems_congr (r1 r2 : Path → String → SStats → String × SStats)
    (fs fs' : SFS) (dirPath : Path) (pfx : String) :
    ∀ (items : List String) (stats : SStats),
    (∀ it ∈ items, lookupS fs (dirPath ++ [it]) = lookupS fs' (dirPath ++ [it])) →
    (∀ it ∈ items, lookupS fs (dirPath ++ [it]) = some .sdir →
      ∀ pfx2 st2, r1 (dirPath ++ [it]) pfx2 st2 = r2 (dirPath ++ [it]) pfx2 st2) →
    gtsItems r1 fs dirPath pfx items stats = gtsItems r2 fs' dirPath pfx items stats := by
  intro items
  induction items with
  | nil => intro stats _ _; rfl
  | cons it rest ih =>
    intro stats hlook hrend
    have hl := hlook it (List.mem_cons_self it rest)
    have hihrest := fun s => ih s
      (fun x hx => hlook x (List.mem_cons_of_mem _ hx))
      (fun x hx => hrend x (List.mem_cons_of_mem _ hx))
    cases h : lookupS fs (dirPath ++ [it]) with
    | none =>
      rw [gtsItems_cons_none r1 fs dirPath pfx it rest stats h,
        gtsItems_cons_none r2 fs' dirPath pfx it rest stats (hl.symm.trans h),
        hihrest _]
    | some e =>
      cases e with
      | sfile =>
        rw [gtsItems_cons_file r1 fs dirPath pfx it rest stats h,
          gtsItems_cons_file r2 fs' dirPath pfx it rest stats (hl.symm.trans h),
          hihrest _]
      | slink t =>
        rw [gtsItems_cons_link r1 fs dirPath pfx it t rest stats h,
          gtsItems_cons_link r2 fs' dirPath pfx it t rest stats (hl.symm.trans h),
          hihrest _]
      | sdir =>
        rw [gtsItems_cons_dir r1 fs dirPath pfx it rest stats h,
          gtsItems_cons_dir r2 fs' dirPath pfx it rest stats (hl.symm.trans h),
          hrend it (List.mem_cons_self it rest) h, hihrest _]

end DirCtl

namespace DirCtl

theorem gts_link_independent (matcher : String → String → Bool)
    (scriptName : String) (pats : List String) (root : Path) (l : Path) :
    ∀ (fuel : Nat) (fs fs' : SFS) (dirPath : Path) (pfx : String) (stats : SStats),
    offLink l fs = offLink l fs' →
    (∃ t, lookupS fs l = some (.slink t)) →
    ¬ l <+: dirPath →
    generate_tree_string matcher scriptName pats root fs fuel dirPath pfx stats =
      generate_tree_string matcher scriptName pats root fs' fuel dirPath pfx stats := by
  intro fuel
  induction fuel with
  | zero => intro fs fs' dirPath pfx stats _ _ _; rfl
  | succ f ihf =>
    intro fs fs' dirPath pfx stats hoff hlink hdir
    simp only [generate_tree_string]
    have hlookagree : ∀ q, ¬ strictExt l q → lookupS fs q = lookupS fs' q := by
      intro q hq
      rw [lookupS_offLink l fs q hq, hoff, ← lookupS_offLink l fs' q hq]
    have hch : childNames fs dirPath = childNames fs' dirPath := by
      rw [childNames_offLink l fs dirPath hdir, hoff,
        ← childNames_offLink l fs' dirPath hdir]
    have hvi : visibleItems matcher scriptName pats root fs dirPath =
        visibleItems matcher scriptName pats root fs' dirPath := by
      unfold visibleItems
      rw [hch]
    rw [hvi]
    apply gtsItems_congr
    · intro it _
      exact hlookagree _ (fun hcon => not_strictExt_child l dirPath it hdir hcon)
    · intro it _ hsd pfx2 st2
      apply ihf _ _ _ _ _ hoff hlink
      intro hcon
      by_cases heq2 : l = dirPath ++ [it]
      · obtain ⟨t, hlt⟩ := hlink
        rw [heq2] at hlt
        rw [hlt] at hsd
        exact SEntry.noConfusion (Option.some.inj hsd)
      · exact not_strictExt_child l dirPath it hdir ⟨hcon, heq2⟩

theorem gts_fuel_stable (matcher : String → String → Bool) (scriptName : String)
    (pats : List String) (root : Path) (fs : SFS) :
    ∀ (n : Nat) (dirPath : Path) (f g : Nat) (pfx : String) (stats : SStats),
    extCount fs dirPath ≤ n →
    extCount fs dirPath < f → extCount fs dirPath < g →
    generate_tree_string matcher scriptName pats root fs f dirPath pfx stats =
      generate_tree_string matcher scriptName pats root fs g dirPath pfx stats := by
  intro n
  induction n with
  | zero =>
    intro dirPath f g pfx stats hn hf hg
    cases f with
    | zero => omega
    | succ f' =>
      cases g with
      | zero => omega
      | succ g' =>
        simp only [generate_tree_string]
        apply gtsItems_congr
        · intro it _
          rfl
        · intro it _ hsd pfx2 st2
          exfalso
          have hlt := extCount_child_lt fs dirPath it (lookupS_mem fs _ _ hsd)
          omega
  | succ m ihm =>
    intro dirPath f g pfx stats hn hf hg
    cases f with
    | zero => omega
    | succ f' =>
      cases g with
      | zero => omega
      | succ g' =>
        simp only [generate_tree_string]
        apply gtsItems_congr
        · intro it _
          rfl
        · intro it _ hsd pfx2 st2
          have hlt := extCount_child_lt fs dirPath it (lookupS_mem fs _ _ hsd)
          exact ihm (dirPath ++ [it]) f' g' pfx2 st2 (by omega) (by omega) (by omega)

/-- C6 (confirmed).  Part 1: a symbolic-link child is rendered as exactly
the single leaf line `name -> target`, the recursion is never entered for
it (only the sibling fold continues, with `files` incremented), and — for
newline-free names — that contribution is exactly one line.  Part 2: the
serialized output is completely independent of whatever the filesystem
contains strictly below a symlink path, cycles included.  Part 3: the walk
terminates — any two fuel bounds above the number of proper descendants of
the start directory give the same output. -/
theorem c6_symlink_leaf :
    (∀ (render : Path → String → SStats → String × SStats) (fs : SFS)
        (dirPath : Path) (pfx it t : String) (rest : List String) (stats : SStats),
      lookupS fs (dirPath ++ [it]) = some (.slink t) →
      gtsItems render fs dirPath pfx (it :: rest) stats =
        ((pfx ++ (if rest.isEmpty then "└── " else "├── ") ++ it ++ " -> " ++ t ++ "\n") ++
            (gtsItems render fs dirPath pfx rest
              { stats with files := stats.files + 1 }).1,
          (gtsItems render fs dirPath pfx rest
            { stats with files := stats.files + 1 }).2) ∧
      (countNL pfx = 0 → countNL it = 0 → countNL t = 0 →
        countNL (pfx ++ (if rest.isEmpty then "└── " else "├── ") ++ it ++ " -> " ++ t ++ "\n") = 1)) ∧
    (∀ (matcher : String → String → Bool) (scriptName : String)
        (pats : List String) (root : Path) (fuel : Nat) (fs fs' : SFS)
        (l : Path) (dirPath : Path) (pfx : String) (stats : SStats),
      offLink l fs = offLink l fs' →
      (∃ t, lookupS fs l = some (.slink t)) →
      ¬ l <+: dirPath →
      generate_tree_string matcher scriptName pats root fs fuel dirPath pfx stats =
        generate_tree_string matcher scriptName pats root fs' fuel dirPath pfx stats) ∧
    (∀ (matcher : String → String → Bool) (scriptName : String)
        (pats : List String) (root : Path) (fs : SFS) (f g : Nat)
        (dirPath : Path) (pfx : String) (stats : SStats),
      extCount fs dirPath < f → extCount fs dirPath < g →
      generate_tree_string matcher scriptName pats root fs f dirPath pfx stats =
        generate_tree_string matcher scriptName pats root fs g dirPath pfx stats) := by
  refine ⟨?_, ?_, ?_⟩
  · intro render fs dirPath pfx it t rest stats h
    constructor
    · exact gtsItems_cons_link render fs dirPath pfx it t rest stats h
    · intro h1 h2 h3
      have hc : countNL (if rest.isEmpty then "└── " else "├── ") = 0 := by
        cases rest.isEmpty <;> decide
      have h4 : countNL " -> " = 0 := by decide
      have h5 : countNL "\n" = 1 := by decide
      rw [countNL_append, countNL_append, countNL_append, countNL_append,
        countNL_append, h1, h2, h3, hc, h4, h5]
  · intro matcher scriptName pats root fuel fs fs' l dirPath pfx stats hoff hlink hdir
    exact gts_link_independent matcher scriptName pats root l fuel fs fs' dirPath
      pfx stats hoff hlink hdir
  · intro matcher scriptName pats root fs f g dirPath pfx stats hf hg
    exact gts_fuel_stable matcher scriptName pats root fs (extCount fs dirPath)
      dirPath f g pfx stats (le_refl _) hf hg

/-- Witness for C6: the cyclic-link scenario — entries below the link are
invisible, the fuel bound is irrelevant above the descendant count, and the
link renders as the single leaf line. -/
theorem c6_witness :
    (generate_tree_string (fun _ _ => false) "dc.py" [] [] linkSFS 5 [] "" ⟨0, 0⟩ =
      generate_tree_string (fun _ _ => false) "dc.py" [] [] linkSFS2 5 [] "" ⟨0, 0⟩) ∧
    (generate_tree_string (fun _ _ => false) "dc.py" [] [] linkSFS 5 [] "" ⟨0, 0⟩ =
      generate_tree_string (fun _ _ => false) "dc.py" [] [] linkSFS 9 [] "" ⟨0, 0⟩) ∧
    (gtsItems (fun _ _ s => ("", s)) linkSFS ["d"] "    " ["loop"] ⟨0, 0⟩).1 =
      "    └── loop -> ../d\n" := by
  refine ⟨?_, ?_, ?_⟩
  · exact c6_symlink_leaf.2.1 (fun _ _ => false) "dc.py" [] [] 5 linkSFS linkSFS2
      ["d", "loop"] [] "" ⟨0, 0⟩ (by decide) ⟨"../d", by decide⟩ (by decide)
  · exact c6_symlink_leaf.2.2 (fun _ _ => false) "dc.py" [] [] linkSFS 5 9 [] ""
      ⟨0, 0⟩ (by decide) (by decide)
  · have h := (c6_symlink_leaf.1 (fun _ _ s => ("", s)) linkSFS ["d"] "    "
      "loop" "../d" [] ⟨0, 0⟩ (by decide)).1
    rw [h]
    decide

end DirCtl
